import Mathlib

/-!
TimeAnalyzer: duration extraction, category inference and aggregation.

A shallow embedding of `src/components/TimeAnalyzer.js` (`parseTimeEntry`,
`categorizeEntry`, `processTimeData`) together with theorems about it.

Modelling conventions:

* A JavaScript string is a list of code units, each a natural number
  (`Str := List Nat`).  `str "abc"` turns a Lean string literal into such a list.
* A JavaScript number that occurs in this program is never negative (the tag
  grammar admits no sign).  It is modelled by `JSNum`: a finite binary64 value,
  carried as the rational it is, `+Infinity`, or `NaN`.  `JSNum.ofRat` rounds a real
  to the nearest binary64 value, ties to even, with gradual underflow and overflow to
  `+Infinity`; `parseFloat`, `*`, `+` and `/` round their exact result with it.
* The component state (`inputText`, `timeData`, `error`) is passed explicitly.
-/

namespace TimeAnalyzer

/-! ## Strings -/

/-- A string: the list of its code units. -/
abbrev Str := List Nat

/-- The code units of a Lean string literal (used for ASCII literals only). -/
def str (s : String) : Str := s.toList.map Char.toNat

/-- The characters matched by `\s` and removed by `String.prototype.trim`:
WhiteSpace and LineTerminator of ECMAScript. -/
def isWhiteSpace (c : Nat) : Bool :=
  c == 0x09 || c == 0x0A || c == 0x0B || c == 0x0C || c == 0x0D || c == 0x20 ||
  c == 0xA0 || c == 0x1680 || (0x2000 ≤ c && c ≤ 0x200A) || c == 0x2028 ||
  c == 0x2029 || c == 0x202F || c == 0x205F || c == 0x3000 || c == 0xFEFF

/-- The characters matched by `\d`. -/
def isDigit (c : Nat) : Bool := 0x30 ≤ c && c ≤ 0x39

/-- Canonicalize of a non-unicode, ignore-case regular expression.  A code unit
below 128 is upper-cased; a code unit from 128 on never canonicalizes to one below
128, so it is left as it is: every pattern character of `timeRegex` is below 128. -/
def canonicalize (c : Nat) : Nat := if 0x61 ≤ c ∧ c ≤ 0x7A then c - 0x20 else c

/-- The lower case of one code unit, as far as code units below 128 are concerned:
`A`..`Z` are lower-cased, U+212A (KELVIN SIGN) becomes `k`, U+0130 becomes `i`
followed by U+0307.  Every other code unit from 128 on has a lower case without
code units below 128 and is left as it is. -/
def lowerUnit (c : Nat) : Str :=
  if 0x41 ≤ c ∧ c ≤ 0x5A then [c + 0x20]
  else if c = 0x212A then [0x6B]
  else if c = 0x0130 then [0x69, 0x0307]
  else [c]

/-- `String.prototype.toLowerCase`. -/
def toLowerCase (s : Str) : Str := s.flatMap lowerUnit

/-- `String.prototype.startsWith`. -/
def startsWith (s p : Str) : Bool := p.isPrefixOf s

/-- `String.prototype.includes`: `p` occurs in `s` as a contiguous substring. -/
def includes : Str → Str → Bool
  | [], p => p.isEmpty
  | c :: s, p => p.isPrefixOf (c :: s) || includes s p

/-- `String.prototype.trim`. -/
def trim (s : Str) : Str :=
  ((s.dropWhile isWhiteSpace).reverse.dropWhile isWhiteSpace).reverse

/-- `s.replace(p, '')` with a string pattern: the first occurrence of `p` in `s`
is removed; `s` is returned unchanged when `p` does not occur. -/
def replaceFirst : Str → Str → Str
  | [], _ => []
  | c :: s, p => if p.isPrefixOf (c :: s) then (c :: s).drop p.length
                 else c :: replaceFirst s p

/-- `s.split('\n')`. -/
def splitLines : Str → List Str
  | [] => [[]]
  | c :: s =>
    if c = 0x0A then [] :: splitLines s
    else match splitLines s with
      | [] => [[c]]
      | l :: ls => (c :: l) :: ls

/-! ## Regular expressions -/

/-- The regular expression constructs used by `timeRegex`. -/
inductive Regex where
  | char (c : Nat)
  | cls (p : Nat → Bool)
  | seq (r₁ r₂ : Regex)
  | alt (r₁ r₂ : Regex)
  | opt (r : Regex)
  | star (p : Nat → Bool)
  | group (i : Nat) (r : Regex)

/-- The captures recorded so far, the latest first. -/
abbrev Caps := List (Nat × Str)

/-- Greedy repetition of a one-character class, then the continuation `k`; a
shorter repetition is tried when `k` fails. -/
def starLoop {α : Type} (p : Nat → Bool) : Str → (Str → Option α) → Option α
  | [], k => k []
  | c :: s, k =>
    if p c then (starLoop p s k).orElse (fun _ => k (c :: s)) else k (c :: s)

/-- The backtracking matcher: match `r` at the head of the input and hand what is
left, with the captures, to the continuation `k`.  Alternatives are tried from the
left, quantifiers are greedy. -/
def Regex.run {α : Type} : Regex → Str → Caps → (Str → Caps → Option α) → Option α
  | .char c, s, caps, k =>
    match s with
    | [] => none
    | d :: s' => if canonicalize d = canonicalize c then k s' caps else none
  | .cls p, s, caps, k =>
    match s with
    | [] => none
    | d :: s' => if p d then k s' caps else none
  | .seq r₁ r₂, s, caps, k => r₁.run s caps (fun s' caps' => r₂.run s' caps' k)
  | .alt r₁ r₂, s, caps, k => (r₁.run s caps k).orElse (fun _ => r₂.run s caps k)
  | .opt r, s, caps, k => (r.run s caps k).orElse (fun _ => k s caps)
  | .star p, s, caps, k => starLoop p s (fun s' => k s' caps)
  | .group i r, s, caps, k =>
    r.run s caps (fun s' caps' => k s' ((i, s.take (s.length - s'.length)) :: caps'))

/-- The result of a successful match: `index`, `match[0]` and the captures. -/
structure MatchResult where
  index : Nat
  whole : Str
  caps : Caps
deriving DecidableEq, Repr

/-- The capture `match[i]`. -/
def MatchResult.group (m : MatchResult) (i : Nat) : Str := (m.caps.lookup i).getD []

/-- One match attempt at the head of `s`, which starts at position `i`. -/
def Regex.attempt (r : Regex) (i : Nat) (s : Str) : Option MatchResult :=
  r.run s [] (fun s' caps => some ⟨i, s.take (s.length - s'.length), caps⟩)

/-- The scan of `RegExp.prototype.exec`: the first position, from `i` on, at which
a match attempt succeeds. -/
def Regex.execFrom (r : Regex) (i : Nat) : Str → Option MatchResult
  | [] => r.attempt i []
  | c :: s => (r.attempt i (c :: s)).orElse (fun _ => r.execFrom (i + 1) s)

/-- `s.match(r)` for a regular expression without the `g` flag. -/
def Regex.exec (r : Regex) (s : Str) : Option MatchResult := r.execFrom 0 s

/-- The sequence of the literal characters of `s`. -/
def Regex.lit (s : String) : Regex :=
  match str s with
  | [] => .opt (.cls (fun _ => false))
  | c :: cs => cs.foldl (fun r d => .seq r (.char d)) (.char c)

/-- `r+` for a one-character class. -/
def Regex.plus (p : Nat → Bool) : Regex := .seq (.cls p) (.star p)

/-- The number of a tag: `\d+(?:\.\d+)?`. -/
def numberRegex : Regex :=
  .seq (.plus isDigit) (.opt (.seq (.char 0x2E) (.plus isDigit)))

/-- The unit of a tag: `hours?|hrs?|h|minutes?|mins?|m`. -/
def unitRegex : Regex :=
  .alt (.seq (.lit "hour") (.opt (.char 0x73)))
  (.alt (.seq (.lit "hr") (.opt (.char 0x73)))
  (.alt (.lit "h")
  (.alt (.seq (.lit "minute") (.opt (.char 0x73)))
  (.alt (.seq (.lit "min") (.opt (.char 0x73)))
        (.lit "m")))))

/-- `/\[(\d+(?:\.\d+)?)\s*(hours?|hrs?|h|minutes?|mins?|m)\]/i`. -/
def timeRegex : Regex :=
  .seq (.char 0x5B) (.seq (.group 1 numberRegex) (.seq (.star isWhiteSpace)
    (.seq (.group 2 unitRegex) (.char 0x5D))))

/-! ## Numbers -/

/-- A non-negative JavaScript number: a finite binary64 value (carried as the
rational it is), `+Infinity` or `NaN`. -/
inductive JSNum where
  | fin (q : ℚ)
  | inf
  | nan
deriving DecidableEq

/-- The least real that binary64 rounds to `+Infinity`. -/
def overflowBound : ℚ := 2 ^ 1024 - 2 ^ 970

/-- The power `2 ^ k` of an integer `k`. -/
def twoPow (k : ℤ) : ℚ :=
  if 0 ≤ k then ((2 ^ k.toNat : ℕ) : ℚ) else 1 / ((2 ^ (-k).toNat : ℕ) : ℚ)

/-- The integer nearest to `x`, the even one of two. -/
def roundHalfEven (x : ℚ) : ℤ :=
  if x - ⌊x⌋ < 1 / 2 then ⌊x⌋
  else if 1 / 2 < x - ⌊x⌋ then ⌊x⌋ + 1
  else if ⌊x⌋ % 2 = 0 then ⌊x⌋ else ⌊x⌋ + 1

/-- Halving `n` until it is below 2, at most `fuel` times: the number of halvings. -/
def log2Aux : Nat → Nat → Nat
  | 0, _ => 0
  | fuel + 1, n => if 2 ≤ n then log2Aux fuel (n / 2) + 1 else 0

/-- The position of the leading bit of `n`: the `k` with `2 ^ k ≤ n < 2 ^ (k + 1)` for
`n > 0` (`n` halvings are always enough). -/
def log2 (n : Nat) : Nat := log2Aux n n

/-- The integer `e` with `2 ^ e ≤ q < 2 ^ (e + 1)`, for `q > 0`: the difference of
the leading-bit positions of numerator and denominator, or one less. -/
def floorLog2 (q : ℚ) : ℤ :=
  if twoPow ((log2 q.num.toNat : ℤ) - (log2 q.den : ℤ)) ≤ q
  then (log2 q.num.toNat : ℤ) - (log2 q.den : ℤ)
  else (log2 q.num.toNat : ℤ) - (log2 q.den : ℤ) - 1

/-- The exponent of the binary64 spacing at `q > 0`: 52 below the exponent of `q`,
which is taken as -1022 in the subnormal range. -/
def quantumExp (q : ℚ) : ℤ := max (floorLog2 q) (-1022) - 52

/-- The Number value for the real `q ≥ 0`: the binary64 value nearest to `q`, the one
with even significand of two (53 significant bits, multiples of `2 ^ (-1074)` in the
subnormal range), and `+Infinity` when that rounding reaches `2 ^ 1024`. -/
def JSNum.ofRat (q : ℚ) : JSNum :=
  if q ≤ 0 then .fin 0
  else if (roundHalfEven (q / twoPow (quantumExp q)) : ℚ) * twoPow (quantumExp q) < 2 ^ 1024
  then .fin ((roundHalfEven (q / twoPow (quantumExp q)) : ℚ) * twoPow (quantumExp q))
  else .inf

/-- `x * y` on non-negative numbers: the exact product, rounded. -/
def JSNum.mul : JSNum → JSNum → JSNum
  | .fin a, .fin b => .ofRat (a * b)
  | .fin a, .inf => if a = 0 then .nan else .inf
  | .inf, .fin b => if b = 0 then .nan else .inf
  | .inf, .inf => .inf
  | _, _ => .nan

/-- `x + y` on non-negative numbers: the exact sum, rounded. -/
def JSNum.add : JSNum → JSNum → JSNum
  | .fin a, .fin b => .ofRat (a + b)
  | .fin _, .inf => .inf
  | .inf, .fin _ => .inf
  | .inf, .inf => .inf
  | _, _ => .nan

/-- `x / y` on non-negative numbers: the exact quotient, rounded. -/
def JSNum.div : JSNum → JSNum → JSNum
  | .fin a, .fin b => if b = 0 then (if a = 0 then .nan else .inf) else .ofRat (a / b)
  | .fin _, .inf => .fin 0
  | .inf, .fin _ => .inf
  | _, _ => .nan

/-- `isNaN(x)`. -/
def JSNum.isNaN : JSNum → Bool
  | .nan => true
  | _ => false

/-- The natural number written by a string of decimal digits. -/
def digitsValue (ds : Str) : Nat := ds.foldl (fun n d => 10 * n + (d - 0x30)) 0

/-- `parseFloat(s)` for the literals this program hands to it: the longest prefix of
`s` of the form digits, or digits `.` digits, or `.` digits, read as a decimal and
rounded to binary64; `NaN` when there is no digit.  (Sign, exponent and leading white
space, which the capture of `timeRegex` cannot hold, are not modelled.) -/
def parseFloat (s : Str) : JSNum :=
  let ip := s.takeWhile isDigit
  let fp := match s.dropWhile isDigit with
    | c :: rest => if c = 0x2E then rest.takeWhile isDigit else []
    | [] => []
  if ip.isEmpty && fp.isEmpty then .nan
  else .ofRat ((digitsValue ip : ℚ) + (digitsValue fp : ℚ) / 10 ^ fp.length)

/-! ## parseTimeEntry -/

/-- The object returned by `parseTimeEntry`. -/
structure TimeEntry where
  time : JSNum
  text : Str
  originalValue : JSNum
  originalUnit : Str
deriving DecidableEq

/-- `parseTimeEntry`. -/
def parseTimeEntry (line : Str) : Option TimeEntry :=
  match timeRegex.exec line with
  | none => none
  | some m =>
    let value := parseFloat (m.group 1)
    let unit := toLowerCase (m.group 2)
    if value.isNaN then none
    else
      let minutes := if startsWith unit (str "h") then value.mul (.fin 60) else value
      some { time := minutes, text := trim (replaceFirst line m.whole),
             originalValue := value, originalUnit := unit }

/-! ## The matcher against a declarative reading of regular expressions -/

/-- The declarative reading: `r.Matches w c c'` says that `r` matches exactly the
word `w`, turning the captures `c` into `c'`. -/
inductive Regex.Matches : Regex → Str → Caps → Caps → Prop
  | char {c d : Nat} {caps : Caps} :
      canonicalize d = canonicalize c → Matches (.char c) [d] caps caps
  | cls {p : Nat → Bool} {d : Nat} {caps : Caps} :
      p d = true → Matches (.cls p) [d] caps caps
  | seq {r₁ r₂ : Regex} {w₁ w₂ : Str} {c c₁ c₂ : Caps} :
      Matches r₁ w₁ c c₁ → Matches r₂ w₂ c₁ c₂ → Matches (.seq r₁ r₂) (w₁ ++ w₂) c c₂
  | altL {r₁ r₂ : Regex} {w : Str} {c c' : Caps} :
      Matches r₁ w c c' → Matches (.alt r₁ r₂) w c c'
  | altR {r₁ r₂ : Regex} {w : Str} {c c' : Caps} :
      Matches r₂ w c c' → Matches (.alt r₁ r₂) w c c'
  | optSome {r : Regex} {w : Str} {c c' : Caps} :
      Matches r w c c' → Matches (.opt r) w c c'
  | optNone {r : Regex} {c : Caps} : Matches (.opt r) [] c c
  | star {p : Nat → Bool} {w : Str} {c : Caps} :
      (∀ d ∈ w, p d = true) → Matches (.star p) w c c
  | group {i : Nat} {r : Regex} {w : Str} {c c' : Caps} :
      Matches r w c c' → Matches (.group i r) w c ((i, w) :: c')

/-! ## The tag grammar, read declaratively -/

/-- The unit words of the tag grammar. -/
def unitWords : List Str :=
  [str "hour", str "hours", str "hr", str "hrs", str "h",
   str "minute", str "minutes", str "min", str "mins", str "m"]

/-- A non-empty string of decimal digits. -/
def IsDigits (ds : Str) : Prop := ds ≠ [] ∧ ∀ d ∈ ds, isDigit d = true

/-- An integer or decimal with one optional fractional part: `ip` or `ip.fp`. -/
def IsNumber (num : Str) : Prop :=
  IsDigits num ∨ ∃ ip fp, IsDigits ip ∧ IsDigits fp ∧ num = ip ++ 0x2E :: fp

/-- A unit word in any letter case. -/
def IsUnit (u : Str) : Prop :=
  ∃ w ∈ unitWords, u.map canonicalize = w.map canonicalize

/-- The string `tag` is a duration tag `[num ws u]` of the grammar
`\[(\d+(\.\d+)?)\s*(hours?|hrs?|h|minutes?|mins?|m)\]`, case-insensitive. -/
def IsTag (tag num u : Str) : Prop :=
  ∃ ws, IsNumber num ∧ (∀ c ∈ ws, isWhiteSpace c = true) ∧ IsUnit u ∧
    tag = 0x5B :: (num ++ ws ++ u ++ [0x5D])

/-- The line has a substring matching the tag grammar. -/
def HasTag (line : Str) : Prop :=
  ∃ pre tag post num u, line = pre ++ tag ++ post ∧ IsTag tag num u

/-- The tag `tag` sits in `line` between `pre` and `post` and no tag of the line
starts further left. -/
def LeftmostTag (line pre tag post num u : Str) : Prop :=
  line = pre ++ tag ++ post ∧ IsTag tag num u ∧
  ∀ pre' tag' post' num' u', line = pre' ++ tag' ++ post' → IsTag tag' num' u' →
    pre.length ≤ pre'.length

/-- A character of a number: a digit or the point. -/
def isNumberChar (c : Nat) : Bool := isDigit c || c == 0x2E

/-- An ASCII letter. -/
def isLetter (c : Nat) : Bool := (0x41 ≤ c && c ≤ 0x5A) || (0x61 ≤ c && c ≤ 0x7A)


/-- The digits of a digit string as numbers, the least significant first. -/
def digitList (ds : Str) : List Nat := (ds.map (fun d => d - 0x30)).reverse

/-- The decimal number written by `ip` or by `ip.fp`: the integer part is what is
before the point, the fractional part what is after it. -/
def decimalValue (num : Str) : ℚ :=
  let ip := num.takeWhile (fun c => c != 0x2E)
  let fp := (num.dropWhile (fun c => c != 0x2E)).drop 1
  ((Nat.ofDigits 10 (digitList ip) : ℕ) : ℚ) + ((Nat.ofDigits 10 (digitList fp) : ℕ) : ℚ) / 10 ^ fp.length

/-- The unit words that denote hours. -/
def hourWords : List Str := [str "hour", str "hours", str "hr", str "hrs", str "h"]

/-- The unit words that denote minutes. -/
def minuteWords : List Str :=
  [str "minute", str "minutes", str "min", str "mins", str "m"]

/-! ## categorizeEntry -/

/-- The table `categories` of `categorizeEntry`, in the order of its keys. -/
def categories : List (String × List Str) :=
  [("Meetings & Calls",
      [str "call", str "sync", str "meeting", str "standup", str "catch-up", str "catchup",
       str "interview", str "workshop", str "session", str "1:1", str "one-on-one",
       str "conference", str "webinar"]),
   ("Research & Documentation",
      [str "research", str "documentation", str "write", str "draft", str "review",
       str "read", str "analyze", str "analysis", str "report", str "document", str "study",
       str "explore", str "investigation", str "learn", str "notes", str "writing",
       str "wiki"]),
   ("Development & Engineering",
      [str "test", str "develop", str "code", str "debug", str "programming",
       str "deployment", str "feature", str "fix", str "build", str "implementation",
       str "coding", str "testing", str "qa", str "architecture", str "design system",
       str "technical", str "engineering"]),
   ("Planning & Strategy",
      [str "plan", str "strategy", str "prep", str "roadmap", str "goal", str "okr",
       str "vision", str "initiative", str "objective", str "priority", str "planning",
       str "strategic", str "forecast", str "budget", str "scope", str "requirements"]),
   ("Communication & Coordination",
      [str "message", str "response", str "coordination", str "email", str "slack",
       str "chat", str "discord", str "telegram", str "announcement", str "communication",
       str "respond", str "follow-up", str "followup", str "update", str "status"]),
   ("Design & Creative",
      [str "design", str "mockup", str "prototype", str "wireframe", str "ui", str "ux",
       str "visual", str "graphics", str "creative", str "artwork", str "illustration",
       str "sketch", str "figma", str "styling"]),
   ("Marketing & Content",
      [str "marketing", str "content", str "social media", str "blog", str "post",
       str "tweet", str "campaign", str "promotion", str "seo", str "analytics",
       str "metrics", str "copy", str "editorial", str "publish", str "social"]),
   ("Project Management",
      [str "project", str "management", str "tracking", str "jira", str "trello",
       str "asana", str "milestone", str "deadline", str "timeline", str "schedule",
       str "coordination", str "organizing", str "backlog", str "sprint"]),
   ("Customer & Support",
      [str "customer", str "support", str "client", str "user", str "feedback", str "help",
       str "ticket", str "issue", str "service", str "complaint", str "resolution",
       str "assistance", str "troubleshoot"]),
   ("Administration & Ops",
      [str "admin", str "operation", str "process", str "procedure", str "policy",
       str "system", str "setup", str "configure", str "maintenance", str "infrastructure",
       str "organize", str "filing", str "documentation"]),
   ("Learning & Growth",
      [str "training", str "learning", str "course", str "workshop", str "education",
       str "skill", str "development", str "growth", str "mentor", str "coaching",
       str "onboarding", str "tutorial"])]

/-- The table `workTerms` of `categorizeEntry`, in the order of its keys. -/
def workTerms : List (Str × String) :=
  [(str "team", "Project Management"),
   (str "review", "Research & Documentation"),
   (str "presentation", "Communication & Coordination"),
   (str "report", "Research & Documentation"),
   (str "discussion", "Meetings & Calls"),
   (str "brainstorm", "Planning & Strategy"),
   (str "collaboration", "Project Management")]

/-- The body of `categorizeEntry` over given tables: the first category of which
some keyword is included in the lower-cased text, else the category of the first
work term included in it, else `Miscellaneous`. -/
def categorizeWith (categories : List (String × List Str)) (workTerms : List (Str × String))
    (text : Str) : String :=
  let text := toLowerCase text
  match categories.find? (fun entry => entry.2.any (fun keyword => includes text keyword)) with
  | some (category, _) => category
  | none =>
    match workTerms.find? (fun entry => includes text entry.1) with
    | some (_, category) => category
    | none => "Miscellaneous"

/-- `categorizeEntry`. -/
def categorizeEntry (text : Str) : String := categorizeWith categories workTerms text

/-- The twelve category names. -/
def categoryNames : List String :=
  ["Meetings & Calls", "Research & Documentation", "Development & Engineering",
   "Planning & Strategy", "Communication & Coordination", "Design & Creative",
   "Marketing & Content", "Project Management", "Customer & Support",
   "Administration & Ops", "Learning & Growth", "Miscellaneous"]

/-- Some keyword of the list occurs in the text as a contiguous substring. -/
def SomeKeywordIn (keywords : List Str) (text : Str) : Prop :=
  ∃ keyword ∈ keywords, keyword <:+: text

/-! ## processTimeData -/

/-- An entry with its category: `{...entry, category: categorizeEntry(entry.text)}`. -/
structure CategorizedEntry extends TimeEntry where
  category : String
deriving DecidableEq

/-- A record of `chartData`. -/
structure ChartRecord where
  name : String
  value : JSNum
  hours : JSNum
deriving DecidableEq

/-- The state of the component that `processTimeData` reads and sets. -/
structure AppState where
  inputText : Str
  timeData : List ChartRecord
  error : String
deriving DecidableEq

/-- `_.sumBy(array, iteratee)` on the list of the iteratee's values: 0 for an empty
array, else the first value with the others added to it from left to right. -/
def sumBy : List JSNum → JSNum
  | [] => .fin 0
  | x :: xs => xs.foldl JSNum.add x

/-- One step of `_.groupBy`: the value is pushed to the array of its key, and a key
not seen before is added after the keys present. -/
def groupInsert {α : Type} (key : α → String) (acc : List (String × List α)) (x : α) :
    List (String × List α) :=
  if acc.any (fun g => g.1 == key x) then
    acc.map (fun g => if g.1 == key x then (g.1, g.2 ++ [x]) else g)
  else acc ++ [(key x, [x])]

/-- `Object.entries(_.groupBy(collection, key))`: the groups in the order in which
their keys first occur (no category name is an array index). -/
def groupBy {α : Type} (key : α → String) (xs : List α) : List (String × List α) :=
  xs.foldl (groupInsert key) []

/-- The multiple of 1/10 nearest to `q`, the larger one of two. -/
def round1 (q : ℚ) : ℚ := (⌊q * 10 + 1 / 2⌋ : ℤ) / 10

/-- `parseFloat(x.toFixed(1))`: below 10^21 `toFixed(1)` prints the multiple of 1/10
nearest to the exact value of `x`, the larger one of two, and `parseFloat` reads it
back as a binary64 value; from 10^21 on `toFixed` prints the number itself, which
parses back to it; `NaN` and `Infinity` print as such and parse back. -/
def toFixed1 : JSNum → JSNum
  | .fin q => if q < 10 ^ 21 then .ofRat (round1 q) else .fin q
  | .inf => .inf
  | .nan => .nan

/-- The message set when no line yields an entry. -/
def noEntriesMessage : String :=
  "No valid time entries found. Make sure each task includes time in [X mins] or [X hours] format."

/-- The entries of the input text: `inputText.split('\n').filter(line => line.trim())
.map(parseTimeEntry).filter(entry => entry !== null)`. -/
def validEntries (inputText : Str) : List TimeEntry :=
  ((splitLines inputText).filter (fun line => !(trim line).isEmpty)).filterMap parseTimeEntry

/-- The record of one group of `groupedData`. -/
def chartRecord (totalMinutes : JSNum) (group : String × List CategorizedEntry) : ChartRecord :=
  let totalTime := sumBy (group.2.map (fun item => item.time))
  { name := group.1,
    value := toFixed1 ((totalTime.div totalMinutes).mul (.fin 100)),
    hours := toFixed1 (totalTime.div (.fin 60)) }

/-- `processTimeData`.  No operation of its `try` block throws, so the `catch`
branch is not reached and has no counterpart here. -/
def processTimeData (st : AppState) : AppState :=
  let entries := validEntries st.inputText
  if entries.length = 0 then
    { st with error := noEntriesMessage, timeData := [] }
  else
    let categorizedEntries : List CategorizedEntry :=
      entries.map (fun entry => { entry with category := categorizeEntry entry.text })
    let groupedData := groupBy (fun item => item.category) categorizedEntries
    let totalMinutes := sumBy (entries.map (fun entry => entry.time))
    let chartData := groupedData.map (chartRecord totalMinutes)
    { st with timeData := chartData, error := "" }

/-- The keys of a list in the order in which they first occur. -/
def firstKeys {α : Type} (key : α → String) (xs : List α) : List String :=
  xs.foldl (fun acc x => if key x ∈ acc then acc else acc ++ [key x]) []

/-- The sum of numbers given in reverse: 0 for none, the number itself for one, and
for more the sum of the others with the head added to it. -/
def sumReversed : List JSNum → JSNum
  | [] => .fin 0
  | [x] => x
  | x :: y :: rest => (sumReversed (y :: rest)).add x

/-- The sum of a list of numbers taken from left to right in binary64 addition:
what precedes the last number is summed first and the last number is added to it. -/
def leftSum (xs : List JSNum) : JSNum := sumReversed xs.reverse

/-- The grand total: the sum, from left to right, of `time` over all valid entries. -/
def grandTotal (inputText : Str) : JSNum :=
  leftSum ((validEntries inputText).map (fun entry => entry.time))

/-- The total of a category: the sum, from left to right, of `time` over exactly the
valid entries that `categorizeEntry` puts in the category `c`. -/
def categoryTotal (inputText : Str) (c : String) : JSNum :=
  leftSum (((validEntries inputText).filter (fun entry => categorizeEntry entry.text == c)).map
    (fun entry => entry.time))

/-- The category that `processTimeData` gives an entry. -/
def entryCategory (entry : TimeEntry) : String := categorizeEntry entry.text

/-- The record that `processTimeData` emits for the category `c`, in terms of the
totals of the input text. -/
def recordOf (inputText : Str) (c : String) : ChartRecord :=
  { name := c,
    value := toFixed1 (((categoryTotal inputText c).div (grandTotal inputText)).mul (.fin 100)),
    hours := toFixed1 ((categoryTotal inputText c).div (.fin 60)) }

/-- A positive number: a finite value above 0, or `Infinity`. -/
def JSNum.IsPositive : JSNum → Prop
  | .fin q => 0 < q
  | .inf => True
  | .nan => False

/-- The number of distinct categories among the valid entries. -/
def categoryCount (inputText : Str) : Nat :=
  ((validEntries inputText).map entryCategory).toFinset.card

/-- The `value` fields are finite numbers and their sum differs from 100 by at most
`0.1 * n`. -/
def PercentagesNear100 (records : List ChartRecord) (n : Nat) : Prop :=
  ∃ vs : List ℚ, records.map (fun r => r.value) = vs.map JSNum.fin ∧
    |vs.sum - 100| ≤ 1 / 10 * (n : ℚ)

/-- The line `[1000...0 m] x` whose number is 1 followed by 309 zeros. -/
def hugeLine : Str := str "[1" ++ List.replicate 309 0x30 ++ str " m] x"

/-- The line `[0.000...01 m] x` whose number has 399 zeros after the point and then
a 1: the number 10^-400. -/
def tinyLine : Str := str "[0." ++ List.replicate 399 0x30 ++ str "1 m] x"

/-- The entries with their categories: `categorizedEntries` of `processTimeData`. -/
def categorizeAll (entries : List TimeEntry) : List CategorizedEntry :=
  entries.map (fun entry => { entry with category := categorizeEntry entry.text })

/-- The groups that `processTimeData` builds from the input text:
`Object.entries(groupedData)`. -/
def groupedData (inputText : Str) : List (String × List CategorizedEntry) :=
  groupBy (fun item => item.category) (categorizeAll (validEntries inputText))

/-- The text whose lines are `lines`: `lines.join('\n')`. -/
def joinLines : List Str → Str
  | [] => []
  | [l] => l
  | l :: l' :: ls => l ++ 0x0A :: joinLines (l' :: ls)

/-- A number that is not negative: a finite value from 0 on, or `Infinity`. -/
def JSNum.IsNonneg : JSNum → Prop
  | .fin q => 0 ≤ q
  | .inf => True
  | .nan => False

/-- The finite value of a number (0 when it has none). -/
def JSNum.toRat : JSNum → ℚ
  | .fin q => q
  | _ => 0

/-- A whole number: a finite value that is a natural number. -/
def JSNum.isWhole : JSNum → Bool
  | .fin q => decide (q = ((q.num.toNat : ℕ) : ℚ))
  | _ => false

/-- The sum, in exact arithmetic, of the finite values of `time` over the entries. -/
def exactSum (entries : List TimeEntry) : ℚ := (entries.map (fun entry => entry.time.toRat)).sum

/-- Every `time` of the entries is a whole number and their exact sum is below 2^53:
the case in which no addition of times rounds. -/
def wholeTimes (entries : List TimeEntry) : Bool :=
  entries.all (fun entry => entry.time.isWhole) && decide (exactSum entries < 2 ^ 53)

/-- The list without the repetitions of its elements: of each element the first
occurrence is kept. -/
def removeRepeats : List String → List String
  | [] => []
  | c :: cs => c :: (removeRepeats cs).filter (fun d => d != c)

/-! ## The matcher computes the declarative reading -/

theorem orElse_eq_some {α : Type} {x : Option α} {f : Unit → Option α} {a : α}
    (h : x.orElse f = some a) : x = some a ∨ f () = some a := by
  cases x with
  | none => right; simpa [Option.orElse] using h
  | some b => left; simpa [Option.orElse] using h

theorem orElse_isSome_left {α : Type} {x : Option α} (f : Unit → Option α)
    (h : x.isSome = true) : (x.orElse f).isSome = true := by
  cases x with
  | none => simp at h
  | some b => simp [Option.orElse]

theorem orElse_isSome_right {α : Type} (x : Option α) {f : Unit → Option α}
    (h : (f ()).isSome = true) : (x.orElse f).isSome = true := by
  cases x with
  | none => simpa [Option.orElse] using h
  | some b => simp [Option.orElse]

theorem take_append_sub (w s : Str) : (w ++ s).take ((w ++ s).length - s.length) = w := by
  simp

theorem starLoop_sound {α : Type} (p : Nat → Bool) (k : Str → Option α) :
    ∀ (s : Str) (res : α), starLoop p s k = some res →
      ∃ w s', s = w ++ s' ∧ (∀ d ∈ w, p d = true) ∧ k s' = some res := by
  intro s
  induction s with
  | nil => intro res h; exact ⟨[], [], rfl, by simp, by simpa [starLoop] using h⟩
  | cons c s ih =>
    intro res h
    by_cases hp : p c = true
    · simp only [starLoop, hp, if_true] at h
      rcases orElse_eq_some h with h1 | h1
      · obtain ⟨w, s', hs, hw, hk⟩ := ih res h1
        refine ⟨c :: w, s', by simp [hs], ?_, hk⟩
        intro d hd
        rcases List.mem_cons.1 hd with rfl | hd
        · exact hp
        · exact hw d hd
      · exact ⟨[], c :: s, rfl, by simp, h1⟩
    · simp only [starLoop, hp] at h
      exact ⟨[], c :: s, rfl, by simp, by simpa using h⟩

theorem starLoop_complete {α : Type} (p : Nat → Bool) (k : Str → Option α) (s' : Str)
    (hk : (k s').isSome = true) :
    ∀ w : Str, (∀ d ∈ w, p d = true) → (starLoop p (w ++ s') k).isSome = true := by
  intro w
  induction w with
  | nil =>
    intro _
    cases s' with
    | nil => simpa [starLoop] using hk
    | cons c t =>
      by_cases hp : p c = true
      · simp only [List.nil_append, starLoop, hp, if_true]
        exact orElse_isSome_right _ hk
      · simp only [List.nil_append, starLoop, hp]
        simpa using hk
  | cons c w ih =>
    intro hw
    have hp : p c = true := hw c (by simp)
    simp only [List.cons_append, starLoop, hp, if_true]
    exact orElse_isSome_left _ (ih (fun d hd => hw d (by simp [hd])))

theorem Regex.run_sound {α : Type} (r : Regex) :
    ∀ (s : Str) (caps : Caps) (k : Str → Caps → Option α) (res : α),
      r.run s caps k = some res →
      ∃ w s' caps', s = w ++ s' ∧ r.Matches w caps caps' ∧ k s' caps' = some res := by
  induction r with
  | char c =>
    intro s caps k res h
    cases s with
    | nil => simp [Regex.run] at h
    | cons d s' =>
      by_cases hc : canonicalize d = canonicalize c
      · simp only [Regex.run, hc, if_true] at h
        exact ⟨[d], s', caps, rfl, .char hc, h⟩
      · simp [Regex.run, hc] at h
  | cls p =>
    intro s caps k res h
    cases s with
    | nil => simp [Regex.run] at h
    | cons d s' =>
      by_cases hc : p d = true
      · simp only [Regex.run, hc, if_true] at h
        exact ⟨[d], s', caps, rfl, .cls hc, h⟩
      · simp [Regex.run, hc] at h
  | seq r₁ r₂ ih₁ ih₂ =>
    intro s caps k res h
    simp only [Regex.run] at h
    obtain ⟨w₁, s₁, c₁, hs₁, hm₁, h₁⟩ := ih₁ s caps _ res h
    obtain ⟨w₂, s₂, c₂, hs₂, hm₂, h₂⟩ := ih₂ s₁ c₁ k res h₁
    exact ⟨w₁ ++ w₂, s₂, c₂, by simp [hs₁, hs₂], .seq hm₁ hm₂, h₂⟩
  | alt r₁ r₂ ih₁ ih₂ =>
    intro s caps k res h
    simp only [Regex.run] at h
    rcases orElse_eq_some h with h1 | h1
    · obtain ⟨w, s', c', hs, hm, hk⟩ := ih₁ s caps k res h1
      exact ⟨w, s', c', hs, .altL hm, hk⟩
    · obtain ⟨w, s', c', hs, hm, hk⟩ := ih₂ s caps k res h1
      exact ⟨w, s', c', hs, .altR hm, hk⟩
  | opt r ih =>
    intro s caps k res h
    simp only [Regex.run] at h
    rcases orElse_eq_some h with h1 | h1
    · obtain ⟨w, s', c', hs, hm, hk⟩ := ih s caps k res h1
      exact ⟨w, s', c', hs, .optSome hm, hk⟩
    · exact ⟨[], s, caps, rfl, .optNone, h1⟩
  | star p =>
    intro s caps k res h
    simp only [Regex.run] at h
    obtain ⟨w, s', hs, hw, hk⟩ := starLoop_sound p _ s res h
    exact ⟨w, s', caps, hs, .star hw, hk⟩
  | group i r ih =>
    intro s caps k res h
    simp only [Regex.run] at h
    obtain ⟨w, s', c', hs, hm, hk⟩ := ih s caps _ res h
    refine ⟨w, s', (i, w) :: c', hs, .group hm, ?_⟩
    rw [hs, take_append_sub] at hk
    exact hk

theorem Regex.run_complete {α : Type} {r : Regex} {w : Str} {caps caps' : Caps}
    (hm : r.Matches w caps caps') :
    ∀ (s' : Str) (k : Str → Caps → Option α), (k s' caps').isSome = true →
      (r.run (w ++ s') caps k).isSome = true := by
  induction hm with
  | char hc => intro s' k hk; simpa [Regex.run, hc] using hk
  | cls hc => intro s' k hk; simpa [Regex.run, hc] using hk
  | seq _ _ ih₁ ih₂ =>
    intro s' k hk
    simp only [Regex.run, List.append_assoc]
    exact ih₁ _ _ (ih₂ s' k hk)
  | altL _ ih => intro s' k hk; exact orElse_isSome_left _ (ih s' k hk)
  | altR _ ih => intro s' k hk; exact orElse_isSome_right _ (ih s' k hk)
  | optSome _ ih => intro s' k hk; exact orElse_isSome_left _ (ih s' k hk)
  | optNone => intro s' k hk; exact orElse_isSome_right _ (by simpa using hk)
  | star hw =>
    intro s' k hk
    simp only [Regex.run]
    exact starLoop_complete _ _ s' hk _ hw
  | group _ ih =>
    intro s' k hk
    simp only [Regex.run]
    apply ih
    rw [take_append_sub]
    exact hk

/-! ## Inversion of the declarative reading -/

theorem matches_char {c : Nat} {w : Str} {a b : Caps} :
    (Regex.char c).Matches w a b ↔ ∃ d, w = [d] ∧ canonicalize d = canonicalize c ∧ b = a := by
  constructor
  · intro h; cases h with | char hc => exact ⟨_, rfl, hc, rfl⟩
  · rintro ⟨d, rfl, hc, rfl⟩; exact .char hc

theorem matches_cls {p : Nat → Bool} {w : Str} {a b : Caps} :
    (Regex.cls p).Matches w a b ↔ ∃ d, w = [d] ∧ p d = true ∧ b = a := by
  constructor
  · intro h; cases h with | cls hc => exact ⟨_, rfl, hc, rfl⟩
  · rintro ⟨d, rfl, hc, rfl⟩; exact .cls hc

theorem matches_seq {r₁ r₂ : Regex} {w : Str} {a b : Caps} :
    (Regex.seq r₁ r₂).Matches w a b ↔
      ∃ w₁ w₂ m, w = w₁ ++ w₂ ∧ r₁.Matches w₁ a m ∧ r₂.Matches w₂ m b := by
  constructor
  · intro h; cases h with | seq h₁ h₂ => exact ⟨_, _, _, rfl, h₁, h₂⟩
  · rintro ⟨w₁, w₂, m, rfl, h₁, h₂⟩; exact .seq h₁ h₂

theorem matches_alt {r₁ r₂ : Regex} {w : Str} {a b : Caps} :
    (Regex.alt r₁ r₂).Matches w a b ↔ r₁.Matches w a b ∨ r₂.Matches w a b := by
  constructor
  · intro h
    cases h with
    | altL h => exact .inl h
    | altR h => exact .inr h
  · rintro (h | h)
    · exact .altL h
    · exact .altR h

theorem matches_opt {r : Regex} {w : Str} {a b : Caps} :
    (Regex.opt r).Matches w a b ↔ r.Matches w a b ∨ (w = [] ∧ b = a) := by
  constructor
  · intro h
    cases h with
    | optSome h => exact .inl h
    | optNone => exact .inr ⟨rfl, rfl⟩
  · rintro (h | ⟨rfl, rfl⟩)
    · exact .optSome h
    · exact .optNone

theorem matches_star {p : Nat → Bool} {w : Str} {a b : Caps} :
    (Regex.star p).Matches w a b ↔ (∀ d ∈ w, p d = true) ∧ b = a := by
  constructor
  · intro h; cases h with | star hw => exact ⟨hw, rfl⟩
  · rintro ⟨hw, rfl⟩; exact .star hw

theorem matches_group {i : Nat} {r : Regex} {w : Str} {a b : Caps} :
    (Regex.group i r).Matches w a b ↔ ∃ c, r.Matches w a c ∧ b = (i, w) :: c := by
  constructor
  · intro h; cases h with | group h => exact ⟨_, h, rfl⟩
  · rintro ⟨c, h, rfl⟩; exact .group h

theorem matches_plus {p : Nat → Bool} {w : Str} {a b : Caps} :
    (Regex.plus p).Matches w a b ↔ (w ≠ [] ∧ ∀ d ∈ w, p d = true) ∧ b = a := by
  unfold Regex.plus
  rw [matches_seq]
  constructor
  · rintro ⟨w₁, w₂, m, rfl, h₁, h₂⟩
    obtain ⟨d, rfl, hd, rfl⟩ := matches_cls.1 h₁
    obtain ⟨hw, rfl⟩ := matches_star.1 h₂
    refine ⟨⟨by simp, ?_⟩, rfl⟩
    intro e he
    simp only [List.singleton_append, List.mem_cons] at he
    rcases he with rfl | he
    · exact hd
    · exact hw e he
  · rintro ⟨⟨hne, hw⟩, rfl⟩
    cases w with
    | nil => exact absurd rfl hne
    | cons d t =>
      exact ⟨[d], t, b, rfl, matches_cls.2 ⟨d, rfl, hw d (by simp), rfl⟩,
        matches_star.2 ⟨fun e he => hw e (by simp [he]), rfl⟩⟩

theorem matches_foldl_char (cs : Str) :
    ∀ (r₀ : Regex) (w : Str) (a b : Caps),
      (cs.foldl (fun r d => Regex.seq r (.char d)) r₀).Matches w a b ↔
        ∃ w₀ w₁, w = w₀ ++ w₁ ∧ r₀.Matches w₀ a b ∧
          w₁.map canonicalize = cs.map canonicalize := by
  induction cs with
  | nil =>
    intro r₀ w a b
    simp only [List.foldl_nil, List.map_nil, List.map_eq_nil_iff]
    constructor
    · intro h; exact ⟨w, [], by simp, h, rfl⟩
    · rintro ⟨w₀, w₁, rfl, h, rfl⟩; simpa using h
  | cons c cs ih =>
    intro r₀ w a b
    simp only [List.foldl_cons]
    rw [ih]
    constructor
    · rintro ⟨w₀, w₁, rfl, h, hw⟩
      obtain ⟨v₁, v₂, m, rfl, h₁, h₂⟩ := matches_seq.1 h
      obtain ⟨d, rfl, hd, rfl⟩ := matches_char.1 h₂
      exact ⟨v₁, d :: w₁, by simp, h₁, by simp [hd, hw]⟩
    · rintro ⟨w₀, w₁, rfl, h, hw⟩
      cases w₁ with
      | nil => simp at hw
      | cons d t =>
        simp only [List.map_cons, List.cons.injEq] at hw
        exact ⟨w₀ ++ [d], t, by simp,
          matches_seq.2 ⟨w₀, [d], b, rfl, h, matches_char.2 ⟨d, rfl, hw.1, rfl⟩⟩, hw.2⟩

theorem matches_lit {s : String} {c : Nat} {cs : Str} (hs : str s = c :: cs)
    {w : Str} {a b : Caps} :
    (Regex.lit s).Matches w a b ↔ w.map canonicalize = (str s).map canonicalize ∧ b = a := by
  unfold Regex.lit
  rw [hs]
  simp only
  rw [matches_foldl_char]
  constructor
  · rintro ⟨w₀, w₁, rfl, h, hw⟩
    obtain ⟨d, rfl, hd, rfl⟩ := matches_char.1 h
    exact ⟨by simp [hd, hw], rfl⟩
  · rintro ⟨hw, rfl⟩
    cases w with
    | nil => simp at hw
    | cons d t =>
      simp only [List.map_cons, List.cons.injEq] at hw
      exact ⟨[d], t, rfl, matches_char.2 ⟨d, rfl, hw.1, rfl⟩, hw.2⟩

theorem matches_lit_opt {s : String} {c : Nat} {cs : Str} (hs : str s = c :: cs) (e : Nat)
    {w : Str} {a b : Caps} :
    (Regex.seq (.lit s) (.opt (.char e))).Matches w a b ↔
      (w.map canonicalize = (str s).map canonicalize ∨
        w.map canonicalize = (str s ++ [e]).map canonicalize) ∧ b = a := by
  rw [matches_seq]
  constructor
  · rintro ⟨w₁, w₂, m, rfl, h₁, h₂⟩
    obtain ⟨hw, rfl⟩ := (matches_lit hs).1 h₁
    rcases matches_opt.1 h₂ with h | ⟨rfl, rfl⟩
    · obtain ⟨d, rfl, hd, rfl⟩ := matches_char.1 h
      exact ⟨.inr (by simp [hw, hd]), rfl⟩
    · exact ⟨.inl (by simpa using hw), rfl⟩
  · rintro ⟨hw | hw, rfl⟩
    · exact ⟨w, [], b, by simp, (matches_lit hs).2 ⟨hw, rfl⟩, matches_opt.2 (.inr ⟨rfl, rfl⟩)⟩
    · rw [List.map_append, List.map_eq_append_iff] at hw
      obtain ⟨w₁, w₂, rfl, h₁, h₂⟩ := hw
      cases w₂ with
      | nil => simp at h₂
      | cons d t =>
        cases t with
        | nil =>
          simp only [List.map_cons, List.map_nil, List.cons.injEq, and_true] at h₂
          exact ⟨w₁, [d], b, rfl, (matches_lit hs).2 ⟨h₁, rfl⟩,
            matches_opt.2 (.inl (matches_char.2 ⟨d, rfl, h₂, rfl⟩))⟩
        | cons d' t' => simp at h₂

/-! ## The regular expression against the tag grammar -/

theorem matches_numberRegex {w : Str} {a b : Caps} :
    numberRegex.Matches w a b ↔ IsNumber w ∧ b = a := by
  unfold numberRegex IsNumber IsDigits
  rw [matches_seq]
  constructor
  · rintro ⟨w₁, w₂, m, rfl, h₁, h₂⟩
    obtain ⟨g₁, rfl⟩ := matches_plus.1 h₁
    rcases matches_opt.1 h₂ with h | ⟨rfl, rfl⟩
    · obtain ⟨v₁, v₂, m', rfl, h₃, h₄⟩ := matches_seq.1 h
      obtain ⟨d, rfl, hd, rfl⟩ := matches_char.1 h₃
      obtain ⟨g₄, rfl⟩ := matches_plus.1 h₄
      have hd' : d = 0x2E := by
        unfold canonicalize at hd
        split_ifs at hd <;> omega
      subst hd'
      exact ⟨.inr ⟨w₁, v₂, g₁, g₄, by simp⟩, rfl⟩
    · exact ⟨.inl (by simpa using g₁), rfl⟩
  · rintro ⟨h | ⟨ip, fp, hi, hf, rfl⟩, rfl⟩
    · exact ⟨w, [], b, by simp, matches_plus.2 ⟨h, rfl⟩, matches_opt.2 (.inr ⟨rfl, rfl⟩)⟩
    · exact ⟨ip, 0x2E :: fp, b, rfl, matches_plus.2 ⟨hi, rfl⟩,
        matches_opt.2 (.inl (matches_seq.2 ⟨[0x2E], fp, b, rfl,
          matches_char.2 ⟨_, rfl, rfl, rfl⟩, matches_plus.2 ⟨hf, rfl⟩⟩))⟩

theorem matches_unitRegex {w : Str} {a b : Caps} :
    unitRegex.Matches w a b ↔ IsUnit w ∧ b = a := by
  have e1 : str "hour" = [104, 111, 117, 114] := by decide
  have e2 : str "hr" = [104, 114] := by decide
  have e3 : str "h" = [104] := by decide
  have e4 : str "minute" = [109, 105, 110, 117, 116, 101] := by decide
  have e5 : str "min" = [109, 105, 110] := by decide
  have e6 : str "m" = [109] := by decide
  have f1 : str "hours" = str "hour" ++ [0x73] := by decide
  have f2 : str "hrs" = str "hr" ++ [0x73] := by decide
  have f4 : str "minutes" = str "minute" ++ [0x73] := by decide
  have f5 : str "mins" = str "min" ++ [0x73] := by decide
  unfold unitRegex IsUnit unitWords
  simp only [matches_alt, matches_lit_opt e1, matches_lit_opt e2, matches_lit e3,
    matches_lit_opt e4, matches_lit_opt e5, matches_lit e6, List.mem_cons,
    List.mem_singleton, exists_eq_or_imp, exists_eq_left, f1, f2, f4, f5, List.not_mem_nil,
    false_and, exists_false, or_false]
  tauto

theorem matches_timeRegex {w : Str} {a b : Caps} :
    timeRegex.Matches w a b ↔ ∃ num u, IsTag w num u ∧ b = (2, u) :: (1, num) :: a := by
  unfold timeRegex IsTag
  constructor
  · intro h
    obtain ⟨w₁, r₁, m₁, rfl, h₁, h⟩ := matches_seq.1 h
    obtain ⟨w₂, r₂, m₂, rfl, h₂, h⟩ := matches_seq.1 h
    obtain ⟨w₃, r₃, m₃, rfl, h₃, h⟩ := matches_seq.1 h
    obtain ⟨w₄, w₅, m₄, rfl, h₄, h₅⟩ := matches_seq.1 h
    obtain ⟨d, rfl, hd, rfl⟩ := matches_char.1 h₁
    obtain ⟨c₂, g₂, rfl⟩ := matches_group.1 h₂
    obtain ⟨k₂, rfl⟩ := matches_numberRegex.1 g₂
    obtain ⟨k₃, rfl⟩ := matches_star.1 h₃
    obtain ⟨c₄, g₄, rfl⟩ := matches_group.1 h₄
    obtain ⟨k₄, rfl⟩ := matches_unitRegex.1 g₄
    obtain ⟨e, rfl, he, rfl⟩ := matches_char.1 h₅
    have hd' : d = 0x5B := by
      unfold canonicalize at hd
      split_ifs at hd <;> omega
    have he' : e = 0x5D := by
      unfold canonicalize at he
      split_ifs at he <;> omega
    subst hd' he'
    exact ⟨w₂, w₄, ⟨w₃, k₂, k₃, k₄, by simp⟩, rfl⟩
  · rintro ⟨num, u, ⟨ws, hn, hws, hu, rfl⟩, rfl⟩
    refine matches_seq.2 ⟨[0x5B], num ++ ws ++ u ++ [0x5D], a, rfl,
      matches_char.2 ⟨_, rfl, rfl, rfl⟩, ?_⟩
    refine matches_seq.2 ⟨num, ws ++ u ++ [0x5D], (1, num) :: a, by simp,
      matches_group.2 ⟨a, matches_numberRegex.2 ⟨hn, rfl⟩, rfl⟩, ?_⟩
    refine matches_seq.2 ⟨ws, u ++ [0x5D], (1, num) :: a, by simp,
      matches_star.2 ⟨hws, rfl⟩, ?_⟩
    exact matches_seq.2 ⟨u, [0x5D], (2, u) :: (1, num) :: a, rfl,
      matches_group.2 ⟨_, matches_unitRegex.2 ⟨hu, rfl⟩, rfl⟩,
      matches_char.2 ⟨_, rfl, rfl, rfl⟩⟩

/-! ## A tag is determined by the position at which it starts -/

theorem takeWhile_append_stop (p : Nat → Bool) (a b : Str) (ha : ∀ c ∈ a, p c = true)
    (hb : ∀ c ∈ b.head?, p c = false) : (a ++ b).takeWhile p = a := by
  induction a with
  | nil =>
    cases b with
    | nil => rfl
    | cons c t => simp [List.takeWhile, hb c (by simp)]
  | cons d a ih =>
    have hd : p d = true := ha d (by simp)
    rw [List.cons_append, List.takeWhile_cons, hd, if_pos rfl,
      ih (fun c hc => ha c (by simp [hc]))]

theorem append_unique (p : Nat → Bool) {a₁ b₁ a₂ b₂ : Str} (h : a₁ ++ b₁ = a₂ ++ b₂)
    (ha₁ : ∀ c ∈ a₁, p c = true) (ha₂ : ∀ c ∈ a₂, p c = true)
    (hb₁ : ∀ c ∈ b₁.head?, p c = false) (hb₂ : ∀ c ∈ b₂.head?, p c = false) :
    a₁ = a₂ ∧ b₁ = b₂ := by
  have e : a₁ = a₂ := by
    rw [← takeWhile_append_stop p a₁ b₁ ha₁ hb₁, h, takeWhile_append_stop p a₂ b₂ ha₂ hb₂]
  subst e
  exact ⟨rfl, List.append_cancel_left h⟩

theorem IsNumber.numberChars {num : Str} (h : IsNumber num) :
    num ≠ [] ∧ ∀ c ∈ num, isNumberChar c = true := by
  rcases h with ⟨hne, hd⟩ | ⟨ip, fp, ⟨hine, hi⟩, ⟨_, hf⟩, rfl⟩
  · exact ⟨hne, fun c hc => by simp [isNumberChar, hd c hc]⟩
  · refine ⟨by simp [hine], ?_⟩
    intro c hc
    simp only [List.mem_append, List.mem_cons] at hc
    rcases hc with hc | rfl | hc
    · simp [isNumberChar, hi c hc]
    · simp [isNumberChar]
    · simp [isNumberChar, hf c hc]

theorem canonicalize_letter {c : Nat}
    (h : canonicalize c ∈ [72, 79, 85, 82, 83, 77, 73, 78, 84, 69]) : isLetter c = true := by
  unfold canonicalize at h
  simp only [List.mem_cons, List.mem_singleton, List.not_mem_nil, or_false] at h
  simp only [isLetter, Bool.or_eq_true, Bool.and_eq_true, decide_eq_true_eq]
  split_ifs at h <;> omega

theorem unitWords_letters : ∀ w ∈ unitWords,
    w ≠ [] ∧ ∀ c ∈ w.map canonicalize, c ∈ [72, 79, 85, 82, 83, 77, 73, 78, 84, 69] := by
  decide

theorem IsUnit.letterChars {u : Str} (h : IsUnit u) : u ≠ [] ∧ ∀ c ∈ u, isLetter c = true := by
  obtain ⟨w, hw, hu⟩ := h
  have key : w ≠ [] ∧ ∀ c ∈ w.map canonicalize, c ∈ [72, 79, 85, 82, 83, 77, 73, 78, 84, 69] :=
    unitWords_letters w hw
  constructor
  · rintro rfl
    apply key.1
    simpa using hu.symm
  · intro c hc
    apply canonicalize_letter
    apply key.2
    rw [← hu]
    exact List.mem_map_of_mem _ hc

theorem IsTag.unique {w₁ n₁ u₁ s₁ w₂ n₂ u₂ s₂ : Str} (h₁ : IsTag w₁ n₁ u₁)
    (h₂ : IsTag w₂ n₂ u₂) (h : w₁ ++ s₁ = w₂ ++ s₂) :
    w₁ = w₂ ∧ n₁ = n₂ ∧ u₁ = u₂ ∧ s₁ = s₂ := by
  obtain ⟨x₁, hn₁, hx₁, hu₁, rfl⟩ := h₁
  obtain ⟨x₂, hn₂, hx₂, hu₂, rfl⟩ := h₂
  have cn₁ := hn₁.numberChars
  have cn₂ := hn₂.numberChars
  have cu₁ := hu₁.letterChars
  have cu₂ := hu₂.letterChars
  have notNum : ∀ c, isWhiteSpace c = true ∨ isLetter c = true → isNumberChar c = false := by
    intro c hc
    simp only [isWhiteSpace, isLetter, isNumberChar, isDigit, Bool.or_eq_true, Bool.and_eq_true,
      decide_eq_true_eq, beq_iff_eq, Bool.or_eq_false_iff, Bool.and_eq_false_iff,
      decide_eq_false_iff_not, beq_eq_false_iff_ne] at hc ⊢
    omega
  have notWs : ∀ c, isLetter c = true → isWhiteSpace c = false := by
    intro c hc
    simp only [isWhiteSpace, isLetter, Bool.or_eq_true, Bool.and_eq_true,
      decide_eq_true_eq, beq_iff_eq, Bool.or_eq_false_iff, Bool.and_eq_false_iff,
      decide_eq_false_iff_not, beq_eq_false_iff_ne] at hc ⊢
    omega
  have notClose : ∀ c, isNumberChar c = true ∨ isWhiteSpace c = true ∨ isLetter c = true →
      (c != 0x5D) = true := by
    intro c hc
    simp only [isWhiteSpace, isLetter, isNumberChar, isDigit, Bool.or_eq_true, Bool.and_eq_true,
      decide_eq_true_eq, beq_iff_eq, bne_iff_ne] at hc ⊢
    omega
  have body : ∀ (n x u : Str), (∀ c ∈ n, isNumberChar c = true) →
      (∀ c ∈ x, isWhiteSpace c = true) → (∀ c ∈ u, isLetter c = true) →
      ∀ c ∈ n ++ x ++ u, (c != 0x5D) = true := by
    intro n x u hn hx hu c hc
    simp only [List.mem_append] at hc
    rcases hc with (hc | hc) | hc
    · exact notClose c (.inl (hn c hc))
    · exact notClose c (.inr (.inl (hx c hc)))
    · exact notClose c (.inr (.inr (hu c hc)))
  have headWsU : ∀ (x u : Str), u ≠ [] → (∀ c ∈ x, isWhiteSpace c = true) →
      (∀ c ∈ u, isLetter c = true) → ∀ c ∈ (x ++ u).head?, isNumberChar c = false := by
    intro x u hne hx hu c hc
    cases x with
    | nil =>
      cases u with
      | nil => exact absurd rfl hne
      | cons d t =>
        simp only [List.nil_append, List.head?_cons, Option.mem_def, Option.some.injEq] at hc
        subst hc
        exact notNum _ (.inr (hu _ (by simp)))
    | cons d t =>
      simp only [List.cons_append, List.head?_cons, Option.mem_def, Option.some.injEq] at hc
      subst hc
      exact notNum _ (.inl (hx _ (by simp)))
  have headU : ∀ (u : Str), (∀ c ∈ u, isLetter c = true) →
      ∀ c ∈ u.head?, isWhiteSpace c = false := by
    intro u hu c hc
    cases u with
    | nil => simp at hc
    | cons d t =>
      simp only [List.head?_cons, Option.mem_def, Option.some.injEq] at hc
      subst hc
      exact notWs _ (hu _ (by simp))
  simp only [List.cons_append, List.cons.injEq, true_and, List.append_assoc] at h
  have h' : (n₁ ++ x₁ ++ u₁) ++ 0x5D :: s₁ = (n₂ ++ x₂ ++ u₂) ++ 0x5D :: s₂ := by
    simpa using h
  obtain ⟨hb, hs⟩ := append_unique (fun c => c != 0x5D) h'
    (body _ _ _ cn₁.2 hx₁ cu₁.2) (body _ _ _ cn₂.2 hx₂ cu₂.2) (by simp) (by simp)
  simp only [List.append_assoc] at hb
  obtain ⟨hn, hr⟩ := append_unique isNumberChar hb cn₁.2 cn₂.2
    (headWsU _ _ cu₁.1 hx₁ cu₁.2) (headWsU _ _ cu₂.1 hx₂ cu₂.2)
  obtain ⟨hx, hu⟩ := append_unique isWhiteSpace hr hx₁ hx₂ (headU _ cu₁.2) (headU _ cu₂.2)
  simp only [List.cons.injEq, true_and] at hs
  subst hn hx hu hs
  exact ⟨rfl, rfl, rfl, rfl⟩

/-! ## What `timeRegex.exec` returns -/

theorem attempt_eq_some {i : Nat} {s : Str} {m : MatchResult}
    (h : timeRegex.attempt i s = some m) :
    ∃ w s' num u, s = w ++ s' ∧ IsTag w num u ∧ m = ⟨i, w, [(2, u), (1, num)]⟩ := by
  unfold Regex.attempt at h
  obtain ⟨w, s', caps, hs, hm, hk⟩ := Regex.run_sound timeRegex s [] _ m h
  obtain ⟨num, u, ht, rfl⟩ := matches_timeRegex.1 hm
  refine ⟨w, s', num, u, hs, ht, ?_⟩
  rw [hs, take_append_sub] at hk
  simpa using hk.symm

theorem attempt_of_tag (i : Nat) {w num u : Str} (s' : Str) (h : IsTag w num u) :
    timeRegex.attempt i (w ++ s') = some ⟨i, w, [(2, u), (1, num)]⟩ := by
  have hsome : (timeRegex.attempt i (w ++ s')).isSome = true := by
    unfold Regex.attempt
    exact Regex.run_complete (matches_timeRegex.2 ⟨num, u, h, rfl⟩) s' _ rfl
  obtain ⟨m, hm⟩ := Option.isSome_iff_exists.1 hsome
  obtain ⟨w₂, s₂, n₂, u₂, hs, ht, rfl⟩ := attempt_eq_some hm
  obtain ⟨rfl, rfl, rfl, -⟩ := IsTag.unique h ht hs
  exact hm

theorem attempt_eq_none {i : Nat} {s : Str}
    (h : ∀ w s' num u, s = w ++ s' → ¬ IsTag w num u) : timeRegex.attempt i s = none := by
  cases hm : timeRegex.attempt i s with
  | none => rfl
  | some m =>
    obtain ⟨w, s', num, u, hs, ht, -⟩ := attempt_eq_some hm
    exact absurd ht (h w s' num u hs)

theorem IsTag.ne_nil {w num u : Str} (h : IsTag w num u) : w ≠ [] := by
  obtain ⟨ws, -, -, -, rfl⟩ := h
  simp

theorem LeftmostTag.tail {c : Nat} {line pre tag post num u : Str}
    (h : LeftmostTag (c :: line) (c :: pre) tag post num u) :
    LeftmostTag line pre tag post num u := by
  obtain ⟨hl, ht, hmin⟩ := h
  refine ⟨by simpa using hl, ht, ?_⟩
  intro pre' tag' post' num' u' hl' ht'
  have := hmin (c :: pre') tag' post' num' u' (by simp [hl']) ht'
  simpa using this

theorem LeftmostTag.no_tag_at_head {c : Nat} {line pre tag post num u : Str}
    (h : LeftmostTag line (c :: pre) tag post num u) :
    ∀ w s' num' u', line = w ++ s' → ¬ IsTag w num' u' := by
  intro w s' num' u' hl ht
  have := h.2.2 [] w s' num' u' (by simpa using hl) ht
  simp at this

theorem execFrom_leftmost {line pre tag post num u : Str} :
    ∀ (i : Nat), LeftmostTag line pre tag post num u →
      timeRegex.execFrom i line = some ⟨i + pre.length, tag, [(2, u), (1, num)]⟩ := by
  induction pre generalizing line with
  | nil =>
    intro i h
    obtain ⟨hl, ht, -⟩ := h
    have ha := attempt_of_tag i post ht
    simp only [List.nil_append] at hl
    rw [← hl] at ha
    cases line with
    | nil => simpa [Regex.execFrom] using ha
    | cons c s => simp [Regex.execFrom, ha, Option.orElse]
  | cons c pre ih =>
    intro i h
    have hl := h.1
    simp only [List.cons_append] at hl
    subst hl
    have hn := attempt_eq_none (i := i) h.no_tag_at_head
    have := ih (i + 1) h.tail
    simp only [Regex.execFrom, hn, Option.orElse, this, List.length_cons]
    congr 2
    omega

theorem execFrom_eq_some {line : Str} :
    ∀ {i : Nat} {m : MatchResult}, timeRegex.execFrom i line = some m →
      ∃ pre tag post num u, LeftmostTag line pre tag post num u ∧
        m = ⟨i + pre.length, tag, [(2, u), (1, num)]⟩ := by
  induction line with
  | nil =>
    intro i m h
    simp only [Regex.execFrom] at h
    obtain ⟨w, s', num, u, hs, ht, rfl⟩ := attempt_eq_some h
    refine ⟨[], w, s', num, u, ⟨by simpa using hs, ht, fun _ _ _ _ _ _ _ => by simp⟩, rfl⟩
  | cons c line ih =>
    intro i m h
    simp only [Regex.execFrom] at h
    rcases orElse_eq_some h with h1 | h1
    · obtain ⟨w, s', num, u, hs, ht, rfl⟩ := attempt_eq_some h1
      exact ⟨[], w, s', num, u, ⟨by simpa using hs, ht, fun _ _ _ _ _ _ _ => by simp⟩, rfl⟩
    · cases ha : timeRegex.attempt i (c :: line) with
      | some m' =>
        obtain ⟨w, s', num, u, hs, ht, rfl⟩ := attempt_eq_some ha
        exact ⟨[], w, s', num, u, ⟨by simpa using hs, ht, fun _ _ _ _ _ _ _ => by simp⟩,
          by simpa [ha, Option.orElse] using h.symm⟩
      | none =>
        obtain ⟨pre, tag, post, num, u, ⟨hl, ht, hmin⟩, rfl⟩ := ih h1
        refine ⟨c :: pre, tag, post, num, u, ⟨by simp [hl], ht, ?_⟩, ?_⟩
        · intro pre' tag' post' num' u' hl' ht'
          cases pre' with
          | nil =>
            exfalso
            have := attempt_of_tag i post' ht'
            rw [List.nil_append] at hl'
            rw [← hl', ha] at this
            exact Option.noConfusion this
          | cons d pre' =>
            simp only [List.cons_append, List.cons.injEq] at hl'
            have := hmin pre' tag' post' num' u' hl'.2 ht'
            simpa using this
        · simp only [List.length_cons]
          congr 1
          omega

theorem exec_leftmost {line pre tag post num u : Str}
    (h : LeftmostTag line pre tag post num u) :
    timeRegex.exec line = some ⟨pre.length, tag, [(2, u), (1, num)]⟩ := by
  have := execFrom_leftmost 0 h
  simpa [Regex.exec] using this

theorem exec_eq_some {line : Str} {m : MatchResult} (h : timeRegex.exec line = some m) :
    ∃ pre tag post num u, LeftmostTag line pre tag post num u ∧
      m = ⟨pre.length, tag, [(2, u), (1, num)]⟩ := by
  obtain ⟨pre, tag, post, num, u, hl, rfl⟩ := execFrom_eq_some h
  exact ⟨pre, tag, post, num, u, hl, by simp⟩

theorem exec_eq_none_iff {line : Str} : timeRegex.exec line = none ↔ ¬ HasTag line := by
  constructor
  · intro h ⟨pre, tag, post, num, u, hl, ht⟩
    suffices ∀ (pre line : Str) (i : Nat), line = pre ++ tag ++ post →
        timeRegex.execFrom i line ≠ none from this pre line 0 hl h
    intro pre
    induction pre with
    | nil =>
      intro line i hl
      have ha := attempt_of_tag i post ht
      rw [List.nil_append] at hl
      rw [← hl] at ha
      cases line with
      | nil => simp [Regex.execFrom, ha]
      | cons c s => simp [Regex.execFrom, ha, Option.orElse]
    | cons c pre ih =>
      intro line i hl
      subst hl
      simp only [List.cons_append, Regex.execFrom]
      cases timeRegex.attempt i (c :: (pre ++ tag ++ post)) with
      | some m => simp [Option.orElse]
      | none =>
        simp only [Option.orElse]
        exact ih _ _ rfl
  · intro h
    cases hm : timeRegex.exec line with
    | none => rfl
    | some m =>
      obtain ⟨pre, tag, post, num, u, ⟨hl, ht, -⟩, -⟩ := exec_eq_some hm
      exact absurd ⟨pre, tag, post, num, u, hl, ht⟩ h

/-! ## The pieces of `parseTimeEntry` on a tag -/

theorem replaceFirst_leftmost {line pre tag post num u : Str} :
    LeftmostTag line pre tag post num u → replaceFirst line tag = pre ++ post := by
  induction pre generalizing line with
  | nil =>
    intro h
    obtain ⟨hl, ht, -⟩ := h
    simp only [List.nil_append] at hl
    cases line with
    | nil =>
      have := ht.ne_nil
      simp_all
    | cons c s =>
      have hp : tag.isPrefixOf (c :: s) = true := by
        rw [List.isPrefixOf_iff_prefix, hl]
        exact List.prefix_append _ _
      simp only [replaceFirst, hp, if_true, List.nil_append]
      rw [hl, List.drop_left]
  | cons c pre ih =>
    intro h
    have hl := h.1
    simp only [List.cons_append] at hl
    subst hl
    have hp : tag.isPrefixOf (c :: (pre ++ tag ++ post)) = false := by
      rw [Bool.eq_false_iff]
      intro hp
      rw [List.isPrefixOf_iff_prefix] at hp
      obtain ⟨t, ht⟩ := hp
      exact h.no_tag_at_head tag t num u (by simpa using ht.symm) h.2.1
    simp only [replaceFirst, hp, List.cons_append, List.cons.injEq, true_and]
    simpa using ih h.tail

theorem dropWhile_append_stop (p : Nat → Bool) (a b : Str) (ha : ∀ c ∈ a, p c = true)
    (hb : ∀ c ∈ b.head?, p c = false) : (a ++ b).dropWhile p = b := by
  induction a with
  | nil =>
    cases b with
    | nil => rfl
    | cons c t => simp [List.dropWhile, hb c (by simp)]
  | cons d a ih =>
    have hd : p d = true := ha d (by simp)
    rw [List.cons_append, List.dropWhile_cons, hd, if_pos rfl,
      ih (fun c hc => ha c (by simp [hc]))]

theorem digitsValue_eq_ofDigits (ds : Str) : digitsValue ds = Nat.ofDigits 10 (digitList ds) := by
  unfold digitsValue digitList
  rw [Nat.ofDigits_eq_foldr, List.foldr_reverse, List.foldl_map]
  congr 1
  funext n d
  simp [Nat.mul_comm, Nat.add_comm]

theorem isDigit_ne_point {c : Nat} (h : isDigit c = true) : (c != 0x2E) = true := by
  simp only [isDigit, Bool.and_eq_true, decide_eq_true_eq, bne_iff_ne] at h ⊢
  omega

theorem parseFloat_number {num : Str} (h : IsNumber num) :
    parseFloat num = JSNum.ofRat (decimalValue num) := by
  rcases h with ⟨hne, hd⟩ | ⟨ip, fp, ⟨hine, hi⟩, ⟨hfne, hf⟩, rfl⟩
  · have t1 := takeWhile_append_stop isDigit num [] hd (by simp)
    have d1 := dropWhile_append_stop isDigit num [] hd (by simp)
    have t2 := takeWhile_append_stop (fun c => c != 0x2E) num []
      (fun c hc => isDigit_ne_point (hd c hc)) (by simp)
    have d2 := dropWhile_append_stop (fun c => c != 0x2E) num []
      (fun c hc => isDigit_ne_point (hd c hc)) (by simp)
    simp only [List.append_nil] at t1 d1 t2 d2
    simp only [parseFloat, decimalValue, t1, d1, t2, d2, List.drop_nil, List.isEmpty_eq_true,
      digitsValue_eq_ofDigits]
    simp [hne, digitList]
  · have t1 := takeWhile_append_stop isDigit ip (0x2E :: fp) hi (by simp [isDigit])
    have d1 := dropWhile_append_stop isDigit ip (0x2E :: fp) hi (by simp [isDigit])
    have t2 := takeWhile_append_stop (fun c => c != 0x2E) ip (0x2E :: fp)
      (fun c hc => isDigit_ne_point (hi c hc)) (by simp)
    have d2 := dropWhile_append_stop (fun c => c != 0x2E) ip (0x2E :: fp)
      (fun c hc => isDigit_ne_point (hi c hc)) (by simp)
    have t3 := takeWhile_append_stop isDigit fp [] hf (by simp)
    simp only [List.append_nil] at t3
    simp only [parseFloat, decimalValue, t1, d1, t2, d2, t3, List.drop_succ_cons, List.drop_zero,
      List.isEmpty_eq_true, digitsValue_eq_ofDigits]
    simp [hine]

theorem JSNum.ofRat_not_nan (q : ℚ) : (JSNum.ofRat q).isNaN = false := by
  unfold JSNum.ofRat
  split_ifs <;> rfl

theorem lowerUnit_letter {c : Nat} (h : isLetter c = true) :
    lowerUnit c = [canonicalize c + 0x20] := by
  simp only [isLetter, Bool.or_eq_true, Bool.and_eq_true, decide_eq_true_eq] at h
  unfold lowerUnit canonicalize
  split_ifs <;> first | omega | rfl | (congr 1; omega)

theorem toLowerCase_letters (u : Str) (h : ∀ c ∈ u, isLetter c = true) :
    toLowerCase u = (u.map canonicalize).map (fun c => c + 0x20) := by
  induction u with
  | nil => rfl
  | cons c u ih =>
    have := ih (fun d hd => h d (by simp [hd]))
    unfold toLowerCase at this ⊢
    simp only [List.flatMap_cons, List.map_cons, this, lowerUnit_letter (h c (by simp))]
    rfl

theorem unitWords_lower : ∀ w ∈ unitWords,
    (w.map canonicalize).map (fun c => c + 0x20) = w := by
  decide

theorem IsUnit.toLowerCase_mem {u : Str} (h : IsUnit u) : toLowerCase u ∈ unitWords := by
  have hc := h.letterChars
  obtain ⟨w, hw, hu⟩ := h
  rw [toLowerCase_letters u hc.2, hu, unitWords_lower w hw]
  exact hw

theorem unitWords_startsWith : ∀ w ∈ unitWords,
    (startsWith w (str "h") = true ↔ w ∈ hourWords) ∧
    (startsWith w (str "h") = false ↔ w ∈ minuteWords) := by
  decide

theorem HasTag.exists_leftmost {line : Str} (h : HasTag line) :
    ∃ pre tag post num u, LeftmostTag line pre tag post num u := by
  cases hm : timeRegex.exec line with
  | none => exact absurd h (exec_eq_none_iff.1 hm)
  | some m =>
    obtain ⟨pre, tag, post, num, u, hl, -⟩ := exec_eq_some hm
    exact ⟨pre, tag, post, num, u, hl⟩

theorem leftmostTag_of_exec {line pre tag post num u : Str}
    (hm : timeRegex.exec line = some ⟨pre.length, tag, [(2, u), (1, num)]⟩)
    (hl : line = pre ++ tag ++ post) : LeftmostTag line pre tag post num u := by
  obtain ⟨pre', tag', post', num', u', h, he⟩ := exec_eq_some hm
  simp only [MatchResult.mk.injEq, List.cons.injEq, Prod.mk.injEq, true_and, and_true] at he
  obtain ⟨hlen, rfl, rfl, rfl⟩ := he
  have h1 := h.1
  rw [hl, List.append_assoc, List.append_assoc] at h1
  have hp : pre = pre' := (List.append_inj h1 hlen).1
  subst hp
  have hpost : post = post' := by
    have := List.append_cancel_left h1
    exact List.append_cancel_left this
  subst hpost
  exact h

theorem parseTimeEntry_leftmost {line pre tag post num u : Str}
    (h : LeftmostTag line pre tag post num u) :
    parseTimeEntry line = some
      { time := if startsWith (toLowerCase u) (str "h") = true
                then (JSNum.ofRat (decimalValue num)).mul (.fin 60)
                else JSNum.ofRat (decimalValue num),
        text := trim (pre ++ post),
        originalValue := JSNum.ofRat (decimalValue num),
        originalUnit := toLowerCase u } := by
  obtain ⟨ws, hn, -, -, -⟩ := h.2.1
  unfold parseTimeEntry
  rw [exec_leftmost h]
  simp only [MatchResult.group, List.lookup, replaceFirst_leftmost h]
  simp [parseFloat_number hn, JSNum.ofRat_not_nan]

theorem parseTimeEntry_eq_none_iff {line : Str} : parseTimeEntry line = none ↔ ¬ HasTag line := by
  constructor
  · intro h ht
    obtain ⟨pre, tag, post, num, u, hl⟩ := ht.exists_leftmost
    rw [parseTimeEntry_leftmost hl] at h
    exact Option.noConfusion h
  · intro h
    unfold parseTimeEntry
    rw [exec_eq_none_iff.2 h]

/-! ## `trim` removes white space at the two ends only -/

theorem head?_dropWhile_ws (s : Str) :
    ∀ c ∈ (s.dropWhile isWhiteSpace).head?, isWhiteSpace c = false := by
  intro c hc
  have := List.head?_dropWhile_not isWhiteSpace s
  rw [Option.mem_def] at hc
  rw [hc] at this
  simpa using this

theorem trim_spec (s : Str) :
    ∃ a b, s = a ++ trim s ++ b ∧ (∀ c ∈ a, isWhiteSpace c = true) ∧
      (∀ c ∈ b, isWhiteSpace c = true) ∧
      (∀ c ∈ (trim s).head?, isWhiteSpace c = false) ∧
      (∀ c ∈ (trim s).getLast?, isWhiteSpace c = false) := by
  have e1 : s = s.takeWhile isWhiteSpace ++ s.dropWhile isWhiteSpace :=
    (List.takeWhile_append_dropWhile _ _).symm
  have e2 : s.dropWhile isWhiteSpace =
      trim s ++ ((s.dropWhile isWhiteSpace).reverse.takeWhile isWhiteSpace).reverse := by
    unfold trim
    rw [← List.reverse_append, List.takeWhile_append_dropWhile, List.reverse_reverse]
  refine ⟨s.takeWhile isWhiteSpace,
    ((s.dropWhile isWhiteSpace).reverse.takeWhile isWhiteSpace).reverse, ?_, ?_, ?_, ?_, ?_⟩
  · rw [List.append_assoc, ← e2]
    exact e1
  · intro c hc
    exact List.mem_takeWhile_imp hc
  · intro c hc
    exact List.mem_takeWhile_imp (List.mem_reverse.1 hc)
  · intro c hc
    apply head?_dropWhile_ws s
    rw [e2]
    cases ht : trim s with
    | nil => rw [ht] at hc; simp at hc
    | cons d t => rw [ht] at hc; simpa using hc
  · intro c hc
    unfold trim at hc
    rw [List.getLast?_reverse] at hc
    exact head?_dropWhile_ws _ c hc

/-! ## Rounding to binary64 -/

theorem log2Aux_eq (fuel n : Nat) (h : n ≤ fuel) : log2Aux fuel n = Nat.log2 n := by
  induction fuel generalizing n with
  | zero =>
    have : n = 0 := by omega
    subst this
    simp [log2Aux, Nat.log2]
  | succ fuel ih =>
    rw [log2Aux, Nat.log2]
    by_cases h2 : 2 ≤ n
    · rw [if_pos h2, if_pos h2, ih]
      omega
    · rw [if_neg h2, if_neg h2]

theorem log2_eq (n : Nat) : log2 n = Nat.log2 n := log2Aux_eq n n le_rfl

theorem twoPow_pos (k : ℤ) : 0 < twoPow k := by
  unfold twoPow
  split_ifs <;> positivity

theorem twoPow_nonpos {k : ℤ} (hk : k ≤ 0) : twoPow k = 1 / ((2 ^ (-k).toNat : ℕ) : ℚ) := by
  unfold twoPow
  split_ifs with h
  · have : k = 0 := le_antisymm hk h
    subst this
    simp
  · rfl

theorem twoPow_eq_zpow (k : ℤ) : twoPow k = (2 : ℚ) ^ k := by
  unfold twoPow
  split_ifs with h
  · obtain ⟨n, rfl⟩ := Int.eq_ofNat_of_zero_le h
    simp
  · push_neg at h
    obtain ⟨n, hn⟩ := Int.exists_eq_neg_ofNat h.le
    subst hn
    simp

theorem floorLog2_le (q : ℚ) : floorLog2 q ≤ (log2 q.num.toNat : ℤ) := by
  unfold floorLog2
  split_ifs <;> omega

theorem floorLog2_spec {q : ℚ} (hq : 0 < q) :
    twoPow (floorLog2 q) ≤ q ∧ q < twoPow (floorLog2 q + 1) := by
  have hnum : 0 < q.num := Rat.num_pos.2 hq
  have hn0 : q.num.toNat ≠ 0 := by omega
  have hd0 : q.den ≠ 0 := q.den_nz
  have ha1 : (2 : ℚ) ^ (log2 q.num.toNat) ≤ (q.num.toNat : ℚ) := by
    rw [log2_eq]
    exact_mod_cast Nat.log2_self_le hn0
  have ha2 : (q.num.toNat : ℚ) < (2 : ℚ) ^ (log2 q.num.toNat + 1) := by
    rw [log2_eq]
    exact_mod_cast Nat.lt_log2_self
  have hb1 : (2 : ℚ) ^ (log2 q.den) ≤ (q.den : ℚ) := by
    rw [log2_eq]
    exact_mod_cast Nat.log2_self_le hd0
  have hb2 : (q.den : ℚ) < (2 : ℚ) ^ (log2 q.den + 1) := by
    rw [log2_eq]
    exact_mod_cast Nat.lt_log2_self
  have hqe : q = (q.num.toNat : ℚ) / (q.den : ℚ) := by
    have h1 : ((q.num.toNat : ℕ) : ℚ) = ((q.num : ℤ) : ℚ) := by
      have : ((q.num.toNat : ℕ) : ℤ) = q.num := Int.toNat_of_nonneg hnum.le
      exact_mod_cast this
    rw [h1]
    exact (Rat.num_div_den q).symm
  have hdpos : (0 : ℚ) < q.den := by exact_mod_cast Nat.pos_of_ne_zero hd0
  have h2 : (0 : ℚ) < 2 := by norm_num
  have upper : q < (2 : ℚ) ^ ((log2 q.num.toNat : ℤ) - (log2 q.den : ℤ) + 1) := by
    rw [show (log2 q.num.toNat : ℤ) - (log2 q.den : ℤ) + 1 =
      ((log2 q.num.toNat + 1 : ℕ) : ℤ) - ((log2 q.den : ℕ) : ℤ) by push_cast; ring,
      zpow_sub₀ h2.ne', zpow_natCast, zpow_natCast]
    conv_lhs => rw [hqe]
    calc (q.num.toNat : ℚ) / q.den ≤ (q.num.toNat : ℚ) / 2 ^ log2 q.den :=
          div_le_div_of_nonneg_left (Nat.cast_nonneg _) (by positivity) hb1
      _ < 2 ^ (log2 q.num.toNat + 1) / 2 ^ log2 q.den :=
          div_lt_div_of_pos_right ha2 (by positivity)
  have lower : (2 : ℚ) ^ ((log2 q.num.toNat : ℤ) - (log2 q.den : ℤ) - 1) ≤ q := by
    rw [show (log2 q.num.toNat : ℤ) - (log2 q.den : ℤ) - 1 =
      ((log2 q.num.toNat : ℕ) : ℤ) - ((log2 q.den + 1 : ℕ) : ℤ) by push_cast; ring,
      zpow_sub₀ h2.ne', zpow_natCast, zpow_natCast]
    conv_rhs => rw [hqe]
    calc (2 : ℚ) ^ log2 q.num.toNat / 2 ^ (log2 q.den + 1)
        ≤ (q.num.toNat : ℚ) / 2 ^ (log2 q.den + 1) :=
          div_le_div_of_nonneg_right ha1 (by positivity)
      _ ≤ (q.num.toNat : ℚ) / q.den :=
          div_le_div_of_nonneg_left (Nat.cast_nonneg _) hdpos hb2.le
  unfold floorLog2
  split_ifs with h
  · exact ⟨h, by rw [twoPow_eq_zpow]; exact upper⟩
  · push_neg at h
    refine ⟨by rw [twoPow_eq_zpow]; exact lower, ?_⟩
    rw [sub_add_cancel]
    exact h

theorem roundHalfEven_nonneg {x : ℚ} (hx : 0 ≤ x) : 0 ≤ roundHalfEven x := by
  have hf : 0 ≤ ⌊x⌋ := Int.floor_nonneg.2 hx
  unfold roundHalfEven
  split_ifs <;> omega

theorem roundHalfEven_intCast (m : ℤ) : roundHalfEven (m : ℚ) = m := by
  unfold roundHalfEven
  simp

theorem roundHalfEven_spec (x : ℚ) :
    |x - roundHalfEven x| ≤ 1 / 2 ∧ (|x - roundHalfEven x| = 1 / 2 → roundHalfEven x % 2 = 0) := by
  have h1 := Int.floor_le x
  have h2 := Int.lt_floor_add_one x
  unfold roundHalfEven
  split_ifs with ha hb hc
  · refine ⟨by rw [abs_le]; constructor <;> linarith, fun h => ?_⟩
    rw [abs_of_nonneg (by linarith)] at h
    linarith
  · push_cast
    refine ⟨by rw [abs_le]; constructor <;> linarith, fun h => ?_⟩
    rw [abs_of_nonpos (by linarith)] at h
    linarith
  · exact ⟨by rw [abs_le]; constructor <;> linarith, fun _ => hc⟩
  · push_cast
    refine ⟨by rw [abs_le]; constructor <;> linarith, fun _ => ?_⟩
    omega

theorem roundHalfEven_le (x : ℚ) : roundHalfEven x ≤ ⌊x⌋ + 1 := by
  unfold roundHalfEven
  split_ifs <;> omega

theorem ofRat_spec {q : ℚ} (hq : 0 < q) :
    ∃ m : ℤ, 0 ≤ m ∧ m ≤ 2 ^ 53 ∧
      |q / twoPow (quantumExp q) - m| ≤ 1 / 2 ∧
      (|q / twoPow (quantumExp q) - m| = 1 / 2 → m % 2 = 0) ∧
      JSNum.ofRat q = if (m : ℚ) * twoPow (quantumExp q) < 2 ^ 1024
        then .fin (m * twoPow (quantumExp q)) else .inf := by
  have hu := twoPow_pos (quantumExp q)
  have hx : 0 ≤ q / twoPow (quantumExp q) := (div_pos hq hu).le
  refine ⟨roundHalfEven (q / twoPow (quantumExp q)), roundHalfEven_nonneg hx, ?_,
    (roundHalfEven_spec _).1, (roundHalfEven_spec _).2, ?_⟩
  · have hlt : q / twoPow (quantumExp q) < 2 ^ 53 := by
      rw [div_lt_iff₀ hu]
      have h1 := (floorLog2_spec hq).2
      have h2 : twoPow (floorLog2 q + 1) ≤ 2 ^ 53 * twoPow (quantumExp q) := by
        rw [twoPow_eq_zpow, twoPow_eq_zpow,
          show (2 : ℚ) ^ 53 = (2 : ℚ) ^ ((53 : ℕ) : ℤ) by rw [zpow_natCast],
          ← zpow_add₀ (by norm_num : (2 : ℚ) ≠ 0)]
        apply zpow_le_zpow_right₀ (by norm_num : (1 : ℚ) ≤ 2)
        unfold quantumExp
        push_cast
        omega
      exact lt_of_lt_of_le h1 h2
    have hfl : ⌊q / twoPow (quantumExp q)⌋ < 2 ^ 53 := by
      rw [Int.floor_lt]
      exact_mod_cast hlt
    have := roundHalfEven_le (q / twoPow (quantumExp q))
    omega
  · unfold JSNum.ofRat
    rw [if_neg (not_le.2 hq)]

theorem ofRat_nonneg (q : ℚ) : (JSNum.ofRat q).IsNonneg := by
  unfold JSNum.ofRat
  split_ifs with h1 h2
  · exact le_refl _
  · have hq : 0 ≤ q / twoPow (quantumExp q) :=
      div_nonneg (le_of_lt (not_le.1 h1)) (twoPow_pos _).le
    have hr : (0 : ℚ) ≤ (roundHalfEven (q / twoPow (quantumExp q)) : ℚ) :=
      Int.cast_nonneg.2 (roundHalfEven_nonneg hq)
    exact mul_nonneg hr (twoPow_pos _).le
  · trivial

theorem ofRat_mul_nonneg (q : ℚ) : ((JSNum.ofRat q).mul (.fin 60)).IsNonneg := by
  cases h : JSNum.ofRat q with
  | fin r => exact ofRat_nonneg _
  | inf =>
    have h60 : ¬ (60 : ℚ) = 0 := by norm_num
    simp only [JSNum.mul, h60, if_false]
    trivial
  | nan =>
    have := JSNum.ofRat_not_nan q
    rw [h] at this
    exact absurd this (by simp [JSNum.isNaN])

theorem ofRat_natCast (n : ℕ) (h : n < 2 ^ 53) : JSNum.ofRat (n : ℚ) = .fin n := by
  rcases Nat.eq_zero_or_pos n with h0 | hpos
  · subst h0
    simp [JSNum.ofRat]
  have hlog : log2 n < 53 := by
    rw [log2_eq]
    exact (Nat.log2_lt hpos.ne').2 h
  have hfl : floorLog2 (n : ℚ) ≤ 52 := by
    have := floorLog2_le (n : ℚ)
    simp only [Rat.num_natCast, Int.toNat_ofNat] at this
    omega
  have hq : quantumExp (n : ℚ) ≤ 0 := by
    unfold quantumExp
    omega
  have hval : ((roundHalfEven ((n : ℚ) / twoPow (quantumExp (n : ℚ))) : ℤ) : ℚ) *
      twoPow (quantumExp (n : ℚ)) = n := by
    rw [twoPow_nonpos hq]
    have e : (n : ℚ) / (1 / ((2 ^ (-quantumExp (n : ℚ)).toNat : ℕ) : ℚ)) =
        (((n * 2 ^ (-quantumExp (n : ℚ)).toNat : ℕ) : ℤ) : ℚ) := by
      push_cast
      field_simp
    rw [e, roundHalfEven_intCast]
    push_cast
    field_simp
  have hn : ¬ (n : ℚ) ≤ 0 := by
    push_neg
    exact_mod_cast hpos
  have hlt : (n : ℚ) < 2 ^ 1024 := by
    have : (n : ℚ) < 2 ^ 53 := by exact_mod_cast h
    exact this.trans (by norm_num)
  unfold JSNum.ofRat
  rw [if_neg hn, hval, if_pos hlt]

theorem decimalValue_nonneg (num : Str) : 0 ≤ decimalValue num := by
  unfold decimalValue
  positivity

/-! ## Claims about `parseTimeEntry` -/

/-- C1 as stated fails: in the line `[1.0000000000000001 m] x` the leftmost tag
writes the decimal number 1.0000000000000001, and the `originalValue` of the entry
is 1, the binary64 value nearest to it.  In the line `[0.03 h] x` the `originalValue`
is the binary64 value nearest to 0.03, which is below 0.03, and the `time` is the
binary64 value 1.7999999999999998, which is below the exact product of that
`originalValue` and 60, itself below 1.8. -/
theorem parseTimeEntry_value_counterexample :
    LeftmostTag (str "[1.0000000000000001 m] x") [] (str "[1.0000000000000001 m]") (str " x")
      (str "1.0000000000000001") (str "m") ∧
    parseTimeEntry (str "[1.0000000000000001 m] x") = some ⟨.fin 1, str "x", .fin 1, str "m"⟩ ∧
    decimalValue (str "1.0000000000000001") = 1 + 1 / 10 ^ 16 ∧
    JSNum.fin 1 ≠ JSNum.fin (decimalValue (str "1.0000000000000001")) ∧
    LeftmostTag (str "[0.03 h] x") [] (str "[0.03 h]") (str " x") (str "0.03") (str "h") ∧
    parseTimeEntry (str "[0.03 h] x") =
      some ⟨.fin (2026619832316723 / 1125899906842624), str "x",
        .fin (1080863910568919 / 36028797018963968), str "h"⟩ ∧
    decimalValue (str "0.03") = 3 / 100 ∧
    (1080863910568919 / 36028797018963968 : ℚ) < 3 / 100 ∧
    (2026619832316723 / 1125899906842624 : ℚ) < 1080863910568919 / 36028797018963968 * 60 ∧
    (1080863910568919 / 36028797018963968 * 60 : ℚ) < 18 / 10 ∧
    JSNum.fin (2026619832316723 / 1125899906842624) =
      JSNum.ofRat (17999999999999998 / 10 ^ 16) := by
  have hd : decimalValue (str "1.0000000000000001") = 1 + 1 / 10 ^ 16 := by decide!
  refine ⟨leftmostTag_of_exec (by decide) (by decide), by decide!, hd, ?_,
    leftmostTag_of_exec (by decide) (by decide), by decide!, by decide!, by norm_num,
    by norm_num, by norm_num, by decide!⟩
  rw [hd]
  intro h
  rw [JSNum.fin.injEq] at h
  norm_num at h

/-- C1, amended: when the leftmost duration tag of a line is `[num ws u]`,
`parseTimeEntry` returns an entry whose `originalValue` is the binary64 value nearest
to the decimal number written by `num` (`Infinity` when that is out of range), whose
`originalUnit` is the lower-cased unit, one of the ten unit words, and whose `time`
is the binary64 product `originalValue * 60` when the unit begins with `h` (hour,
hours, hr, hrs, h) and `originalValue` itself otherwise (minute, minutes, min, mins,
m).  A whole number below 2^53 is its own binary64 value.  The line
`[1.5 hours] Planning` yields time 90 and text `Planning`; the line `[0.03 h] x`
yields the time 1.7999999999999998, which is not 1.8; a positive number below the
binary64 range is read as 0 and one above it as `Infinity`. -/
theorem parseTimeEntry_time_of_tag (line pre tag post num u : Str)
    (h : LeftmostTag line pre tag post num u) :
    (∃ e, parseTimeEntry line = some e ∧
      e.originalValue = JSNum.ofRat (decimalValue num) ∧
      e.originalUnit = toLowerCase u ∧
      (startsWith e.originalUnit (str "h") = true ↔ e.originalUnit ∈ hourWords) ∧
      (startsWith e.originalUnit (str "h") = false ↔ e.originalUnit ∈ minuteWords) ∧
      (e.originalUnit ∈ hourWords → e.time = e.originalValue.mul (.fin 60)) ∧
      (e.originalUnit ∈ minuteWords → e.time = e.originalValue)) ∧
    (∀ n : ℕ, n < 2 ^ 53 → JSNum.ofRat n = .fin n) ∧
    parseTimeEntry (str "[1.5 hours] Planning") =
      some ⟨.fin 90, str "Planning", .fin (3 / 2), str "hours"⟩ ∧
    parseTimeEntry (str "[0.03 h] x") =
      some ⟨.ofRat (17999999999999998 / 10 ^ 16), str "x", .ofRat (3 / 100), str "h"⟩ ∧
    JSNum.ofRat (17999999999999998 / 10 ^ 16) ≠ JSNum.ofRat (18 / 10) ∧
    JSNum.ofRat (1 / 10 ^ 400) = .fin 0 ∧
    JSNum.ofRat overflowBound = .inf := by
  refine ⟨⟨_, parseTimeEntry_leftmost h, rfl, rfl, ?_⟩, ofRat_natCast, by decide!, by decide!,
    by decide!, by decide!, by decide!⟩
  obtain ⟨ws, -, -, hu, -⟩ := h.2.1
  have hs := unitWords_startsWith _ hu.toLowerCase_mem
  refine ⟨hs.1, hs.2, ?_, ?_⟩
  · intro hh
    simp only [hs.1.2 hh, if_true]
  · intro hm
    simp [hs.2.2 hm]

/-- C1 amended, at the line `[2 hrs] Demo`: the entry has the `originalValue` 2 and
the `time` 120. -/
theorem parseTimeEntry_time_of_tag_witness :
    LeftmostTag (str "[2 hrs] Demo") [] (str "[2 hrs]") (str " Demo") (str "2") (str "hrs") ∧
    parseTimeEntry (str "[2 hrs] Demo") = some ⟨.fin 120, str "Demo", .fin 2, str "hrs"⟩ ∧
    ∃ e, parseTimeEntry (str "[2 hrs] Demo") = some e ∧
      e.originalValue = JSNum.ofRat (decimalValue (str "2")) ∧
      (e.originalUnit ∈ hourWords → e.time = e.originalValue.mul (.fin 60)) :=
  have hl : LeftmostTag (str "[2 hrs] Demo") [] (str "[2 hrs]") (str " Demo") (str "2")
      (str "hrs") := leftmostTag_of_exec (by decide) (by decide)
  ⟨hl, by decide!, by
    obtain ⟨⟨e, he, hv, -, -, -, ht, -⟩, -⟩ :=
      parseTimeEntry_time_of_tag _ _ _ _ _ _ hl
    exact ⟨e, he, hv, ht⟩⟩

/-- C2: when the leftmost duration tag of a line sits between `pre` and `post`, the
regular expression matches at the position after `pre`, removing the first
occurrence of the matched string removes the tag at that very position, and the
`text` of the entry is `pre ++ post` without the white space at its two ends:
nothing else of `pre ++ post`, a later tag and interior white space included, is
changed.  The line `x [30 MINS] Planning [2 h] foo  ` yields the text
`x  Planning [2 h] foo`. -/
theorem parseTimeEntry_text_of_tag (line pre tag post num u : Str)
    (h : LeftmostTag line pre tag post num u) :
    timeRegex.exec line = some ⟨pre.length, tag, [(2, u), (1, num)]⟩ ∧
    replaceFirst line tag = pre ++ post ∧
    (∃ e, parseTimeEntry line = some e ∧ e.text = trim (pre ++ post) ∧
      ∃ a b, pre ++ post = a ++ e.text ++ b ∧
        (∀ c ∈ a, isWhiteSpace c = true) ∧ (∀ c ∈ b, isWhiteSpace c = true) ∧
        (∀ c ∈ e.text.head?, isWhiteSpace c = false) ∧
        (∀ c ∈ e.text.getLast?, isWhiteSpace c = false)) ∧
    parseTimeEntry (str "x [30 MINS] Planning [2 h] foo  ") =
      some ⟨.fin 30, str "x  Planning [2 h] foo", .fin 30, str "mins"⟩ :=
  ⟨exec_leftmost h, replaceFirst_leftmost h,
    ⟨_, parseTimeEntry_leftmost h, rfl, trim_spec (pre ++ post)⟩, by decide!⟩

/-- C2, at the line `a [5 m] b [5 m]`, whose tag text occurs twice. -/
theorem parseTimeEntry_text_of_tag_witness :
    LeftmostTag (str "a [5 m] b [5 m]") (str "a ") (str "[5 m]") (str " b [5 m]") (str "5")
      (str "m") ∧
    replaceFirst (str "a [5 m] b [5 m]") (str "[5 m]") = str "a " ++ str " b [5 m]" ∧
    ∃ e, parseTimeEntry (str "a [5 m] b [5 m]") = some e ∧
      e.text = trim (str "a " ++ str " b [5 m]") :=
  have hl : LeftmostTag (str "a [5 m] b [5 m]") (str "a ") (str "[5 m]") (str " b [5 m]")
      (str "5") (str "m") := leftmostTag_of_exec (by decide) (by decide)
  ⟨hl, by
    obtain ⟨-, hr, ⟨e, he, ht, -⟩, -⟩ := parseTimeEntry_text_of_tag _ _ _ _ _ _ hl
    exact ⟨hr, e, he, ht⟩⟩

/-- C3: a line without a substring matching the tag grammar yields `null`; so do
`Planning session`, `[.5 h] x`, `[1 hour ] x` and `[5 months] x`, none of which has
such a substring. -/
theorem parseTimeEntry_none_of_no_tag (line : Str) (h : ¬ HasTag line) :
    parseTimeEntry line = none ∧
    (¬ HasTag (str "Planning session") ∧ parseTimeEntry (str "Planning session") = none) ∧
    (¬ HasTag (str "[.5 h] x") ∧ parseTimeEntry (str "[.5 h] x") = none) ∧
    (¬ HasTag (str "[1 hour ] x") ∧ parseTimeEntry (str "[1 hour ] x") = none) ∧
    (¬ HasTag (str "[5 months] x") ∧ parseTimeEntry (str "[5 months] x") = none) := by
  have key : ∀ l : Str, timeRegex.exec l = none → ¬ HasTag l ∧ parseTimeEntry l = none :=
    fun l hl => ⟨exec_eq_none_iff.1 hl, parseTimeEntry_eq_none_iff.2 (exec_eq_none_iff.1 hl)⟩
  exact ⟨parseTimeEntry_eq_none_iff.2 h, key _ (by decide), key _ (by decide),
    key _ (by decide), key _ (by decide)⟩

/-- C3, at the line `no tag here [x]`. -/
theorem parseTimeEntry_none_of_no_tag_witness :
    ¬ HasTag (str "no tag here [x]") ∧ parseTimeEntry (str "no tag here [x]") = none :=
  have hn : ¬ HasTag (str "no tag here [x]") := exec_eq_none_iff.1 (by decide)
  ⟨hn, (parseTimeEntry_none_of_no_tag _ hn).1⟩

/-! ## categorizeEntry -/

theorem includes_iff (text keyword : Str) : includes text keyword = true ↔ keyword <:+: text := by
  induction text with
  | nil =>
    cases keyword with
    | nil => simp [includes]
    | cons c t => simp [includes]
  | cons c s ih =>
    rw [includes, Bool.or_eq_true, List.isPrefixOf_iff_prefix, ih, List.infix_cons_iff]

theorem any_includes_iff (keywords : List Str) (text : Str) :
    keywords.any (fun keyword => includes text keyword) = true ↔ SomeKeywordIn keywords text := by
  simp [SomeKeywordIn, List.any_eq_true, includes_iff]

theorem categorizeWith_primary {cats : List (String × List Str)} {terms : List (Str × String)}
    {text : Str} (h : ∃ entry ∈ cats, SomeKeywordIn entry.2 (toLowerCase text)) :
    ∃ before category keywords after, cats = before ++ (category, keywords) :: after ∧
      (∀ entry ∈ before, ¬ SomeKeywordIn entry.2 (toLowerCase text)) ∧
      SomeKeywordIn keywords (toLowerCase text) ∧
      categorizeWith cats terms text = category := by
  obtain ⟨entry, hmem, hkw⟩ := h
  cases hf : cats.find? (fun entry =>
      entry.2.any (fun keyword => includes (toLowerCase text) keyword)) with
  | none =>
    rw [List.find?_eq_none] at hf
    exact absurd ((any_includes_iff _ _).2 hkw) (hf entry hmem)
  | some found =>
    obtain ⟨category, keywords⟩ := found
    obtain ⟨hp, before, after, hcats, hbefore⟩ := List.find?_eq_some.1 hf
    refine ⟨before, category, keywords, after, hcats, ?_, (any_includes_iff _ _).1 hp, ?_⟩
    · intro e he hsome
      have := hbefore e he
      rw [(any_includes_iff _ _).2 hsome] at this
      simp at this
    · simp only [categorizeWith, hf]

theorem categorizeWith_secondary {cats : List (String × List Str)} {terms : List (Str × String)}
    {text : Str} (h : ∀ entry ∈ cats, ¬ SomeKeywordIn entry.2 (toLowerCase text)) :
    (categorizeWith cats terms text = "Miscellaneous" ∧
      ∀ entry ∈ terms, ¬ entry.1 <:+: toLowerCase text) ∨
    ∃ before term category after, terms = before ++ (term, category) :: after ∧
      (∀ entry ∈ before, ¬ entry.1 <:+: toLowerCase text) ∧
      term <:+: toLowerCase text ∧
      categorizeWith cats terms text = category := by
  have hnone : cats.find? (fun entry =>
      entry.2.any (fun keyword => includes (toLowerCase text) keyword)) = none := by
    rw [List.find?_eq_none]
    intro e he hany
    exact h e he ((any_includes_iff _ _).1 hany)
  cases hf : terms.find? (fun entry => includes (toLowerCase text) entry.1) with
  | none =>
    left
    refine ⟨by simp only [categorizeWith, hnone, hf], ?_⟩
    rw [List.find?_eq_none] at hf
    intro e he hin
    exact hf e he ((includes_iff _ _).2 hin)
  | some found =>
    right
    obtain ⟨term, category⟩ := found
    obtain ⟨hp, before, after, hterms, hbefore⟩ := List.find?_eq_some.1 hf
    refine ⟨before, term, category, after, hterms, ?_, (includes_iff _ _).1 hp, ?_⟩
    · intro e he hin
      have := hbefore e he
      rw [(includes_iff _ _).2 hin] at this
      simp at this
    · simp only [categorizeWith, hnone, hf]

theorem categorizeWith_mem (cats : List (String × List Str)) (terms : List (Str × String))
    (text : Str) :
    categorizeWith cats terms text ∈
      cats.map Prod.fst ++ terms.map Prod.snd ++ ["Miscellaneous"] := by
  unfold categorizeWith
  simp only
  cases hf : cats.find? (fun entry =>
      entry.2.any (fun keyword => includes (toLowerCase text) keyword)) with
  | some found =>
    have := List.mem_of_find?_eq_some hf
    simp only [List.mem_append, List.mem_map]
    exact .inl (.inl ⟨found, this, rfl⟩)
  | none =>
    cases hg : terms.find? (fun entry => includes (toLowerCase text) entry.1) with
    | some found =>
      have := List.mem_of_find?_eq_some hg
      simp only [List.mem_append, List.mem_map]
      exact .inl (.inr ⟨found, this, rfl⟩)
    | none => simp

theorem lowerUnit_canonicalize (c : Nat) : lowerUnit (canonicalize c) = lowerUnit c := by
  unfold lowerUnit canonicalize
  split_ifs <;> first | rfl | omega | (congr 1; omega)

theorem toLowerCase_map_canonicalize (d : Str) :
    toLowerCase (d.map canonicalize) = toLowerCase d := by
  unfold toLowerCase
  induction d with
  | nil => rfl
  | cons c d ih => simp only [List.map_cons, List.flatMap_cons, ih, lowerUnit_canonicalize]

theorem categorizeEntry_map_canonicalize (d : Str) :
    categorizeEntry (d.map canonicalize) = categorizeEntry d := by
  unfold categorizeEntry categorizeWith
  simp only [toLowerCase_map_canonicalize]

/-- C4: when some keyword of some primary category occurs in the lower-cased
description, `categorizeEntry` returns the first category of the table, in the order
Meetings & Calls, Research & Documentation, Development & Engineering, Planning &
Strategy, Communication & Coordination, Design & Creative, Marketing & Content,
Project Management, Customer & Support, Administration & Ops, Learning & Growth,
that has a keyword occurring in it as a plain substring.  `Recall` gives Meetings &
Calls, and so does `code review call`, which holds keywords of three categories.
The letter case of the description does not matter: `CALL` and `Code REVIEW Call`
give Meetings & Calls, `DEBUG` gives Development & Engineering, and a description
and its upper-cased form always get the same category. -/
theorem categorizeEntry_first_primary (d : Str)
    (h : ∃ entry ∈ categories, SomeKeywordIn entry.2 (toLowerCase d)) :
    (∃ before category keywords after, categories = before ++ (category, keywords) :: after ∧
      (∀ entry ∈ before, ¬ SomeKeywordIn entry.2 (toLowerCase d)) ∧
      SomeKeywordIn keywords (toLowerCase d) ∧
      categorizeEntry d = category) ∧
    categories.map Prod.fst =
      ["Meetings & Calls", "Research & Documentation", "Development & Engineering",
       "Planning & Strategy", "Communication & Coordination", "Design & Creative",
       "Marketing & Content", "Project Management", "Customer & Support",
       "Administration & Ops", "Learning & Growth"] ∧
    categorizeEntry (str "Recall") = "Meetings & Calls" ∧
    str "call" <:+: toLowerCase (str "Recall") ∧
    categorizeEntry (str "code review call") = "Meetings & Calls" ∧
    str "call" <:+: toLowerCase (str "code review call") ∧
    str "review" <:+: toLowerCase (str "code review call") ∧
    str "code" <:+: toLowerCase (str "code review call") ∧
    toLowerCase (str "Code REVIEW Call") = str "code review call" ∧
    categorizeEntry (str "Code REVIEW Call") = "Meetings & Calls" ∧
    categorizeEntry (str "CALL") = "Meetings & Calls" ∧
    categorizeEntry (str "DEBUG") = "Development & Engineering" ∧
    categorizeEntry (d.map canonicalize) = categorizeEntry d ∧
    (str "CALL").map canonicalize = str "CALL" ∧
    (str "call").map canonicalize = str "CALL" :=
  ⟨categorizeWith_primary h, by decide, by decide, by decide, by decide, by decide, by decide,
    by decide, by decide, by decide, by decide, by decide, categorizeEntry_map_canonicalize d,
    by decide, by decide⟩

/-- C4, at the description `FIX the Build`. -/
theorem categorizeEntry_first_primary_witness :
    (∃ entry ∈ categories, SomeKeywordIn entry.2 (toLowerCase (str "FIX the Build"))) ∧
    (∃ before category keywords after, categories = before ++ (category, keywords) :: after ∧
      (∀ entry ∈ before, ¬ SomeKeywordIn entry.2 (toLowerCase (str "FIX the Build"))) ∧
      SomeKeywordIn keywords (toLowerCase (str "FIX the Build")) ∧
      categorizeEntry (str "FIX the Build") = category) ∧
    categorizeEntry (str "FIX the Build") = "Development & Engineering" :=
  have hk : ∃ entry ∈ categories, SomeKeywordIn entry.2 (toLowerCase (str "FIX the Build")) := by
    obtain ⟨e, he, hany⟩ := List.any_eq_true.1 (by decide : categories.any (fun e =>
      e.2.any (fun k => includes (toLowerCase (str "FIX the Build")) k)) = true)
    exact ⟨e, he, (any_includes_iff _ _).1 hany⟩
  ⟨hk, (categorizeEntry_first_primary _ hk).1, by decide⟩

theorem categorizeWith_terms_irrelevant {cats : List (String × List Str)} {text : Str}
    (h : ∃ entry ∈ cats, SomeKeywordIn entry.2 (toLowerCase text))
    (terms terms' : List (Str × String)) :
    categorizeWith cats terms text = categorizeWith cats terms' text := by
  obtain ⟨entry, hmem, hkw⟩ := h
  cases hf : cats.find? (fun entry =>
      entry.2.any (fun keyword => includes (toLowerCase text) keyword)) with
  | none =>
    rw [List.find?_eq_none] at hf
    exact absurd ((any_includes_iff _ _).2 hkw) (hf entry hmem)
  | some found => simp only [categorizeWith, hf]

/-- C5: when no keyword of any primary category occurs in the lower-cased
description, `categorizeEntry` returns the category mapped to the first term, in the
order team, review, presentation, report, discussion, brainstorm, collaboration,
that occurs in it, and `Miscellaneous` when none occurs; team, presentation,
discussion, brainstorm and collaboration give Project Management, Communication &
Coordination, Meetings & Calls, Planning & Strategy and Project Management.  When a
primary keyword occurs, the result does not depend on the secondary table.  The
terms are looked for in the lower-cased description: `Team lunch`, `TEAM` and
`BrainStorm` give Project Management, Project Management and Planning & Strategy,
`lunch` gives Miscellaneous, and a description and its upper-cased form always get
the same category. -/
theorem categorizeEntry_secondary (d : Str)
    (h : ∀ entry ∈ categories, ¬ SomeKeywordIn entry.2 (toLowerCase d)) :
    ((categorizeEntry d = "Miscellaneous" ∧
        ∀ entry ∈ workTerms, ¬ entry.1 <:+: toLowerCase d) ∨
      ∃ before term category after, workTerms = before ++ (term, category) :: after ∧
        (∀ entry ∈ before, ¬ entry.1 <:+: toLowerCase d) ∧
        term <:+: toLowerCase d ∧
        categorizeEntry d = category) ∧
    workTerms.map Prod.fst =
      [str "team", str "review", str "presentation", str "report", str "discussion",
       str "brainstorm", str "collaboration"] ∧
    categorizeEntry (str "team") = "Project Management" ∧
    categorizeEntry (str "presentation") = "Communication & Coordination" ∧
    categorizeEntry (str "discussion") = "Meetings & Calls" ∧
    categorizeEntry (str "brainstorm") = "Planning & Strategy" ∧
    categorizeEntry (str "collaboration") = "Project Management" ∧
    (∀ (d' : Str) (terms : List (Str × String)),
      (∃ entry ∈ categories, SomeKeywordIn entry.2 (toLowerCase d')) →
        categorizeWith categories terms d' = categorizeEntry d') ∧
    toLowerCase (str "Team lunch") = str "team lunch" ∧
    categorizeEntry (str "Team lunch") = "Project Management" ∧
    categorizeEntry (str "TEAM") = "Project Management" ∧
    categorizeEntry (str "BrainStorm") = "Planning & Strategy" ∧
    categorizeEntry (str "lunch") = "Miscellaneous" ∧
    categorizeEntry (d.map canonicalize) = categorizeEntry d ∧
    (str "team").map canonicalize = str "TEAM" :=
  ⟨categorizeWith_secondary h, by decide, by decide, by decide, by decide, by decide,
    by decide, fun _ terms hd => categorizeWith_terms_irrelevant hd terms workTerms,
    by decide, by decide, by decide, by decide, by decide,
    categorizeEntry_map_canonicalize d, by decide⟩

/-- C5, at the description `Team lunch`. -/
theorem categorizeEntry_secondary_witness :
    (∀ entry ∈ categories, ¬ SomeKeywordIn entry.2 (toLowerCase (str "Team lunch"))) ∧
    ((categorizeEntry (str "Team lunch") = "Miscellaneous" ∧
        ∀ entry ∈ workTerms, ¬ entry.1 <:+: toLowerCase (str "Team lunch")) ∨
      ∃ before term category after, workTerms = before ++ (term, category) :: after ∧
        (∀ entry ∈ before, ¬ entry.1 <:+: toLowerCase (str "Team lunch")) ∧
        term <:+: toLowerCase (str "Team lunch") ∧
        categorizeEntry (str "Team lunch") = category) ∧
    categorizeEntry (str "Team lunch") = "Project Management" :=
  have hk : ∀ entry ∈ categories, ¬ SomeKeywordIn entry.2 (toLowerCase (str "Team lunch")) :=
    fun e he hs => List.find?_eq_none.1
      (by decide : categories.find? (fun entry => entry.2.any (fun keyword =>
        includes (toLowerCase (str "Team lunch")) keyword)) = none)
      e he ((any_includes_iff _ _).2 hs)
  ⟨hk, (categorizeEntry_secondary _ hk).1, (categorizeEntry_secondary _ hk).2.2.2.2.2.2.2.2.2.1⟩

/-- C6: `categorizeEntry` is a total function: every description, the empty one
included, gets exactly one value, and this value is one of the twelve category
names. -/
theorem categorizeEntry_total (d : Str) :
    (∃! c, c ∈ categoryNames ∧ categorizeEntry d = c) ∧
    categoryNames.length = 12 ∧
    categorizeEntry [] = "Miscellaneous" := by
  have hmem : categorizeEntry d ∈ categoryNames := by
    have h := categorizeWith_mem categories workTerms d
    have hsub : ∀ c ∈ categories.map Prod.fst ++ workTerms.map Prod.snd ++ ["Miscellaneous"],
        c ∈ categoryNames := by decide
    exact hsub _ h
  exact ⟨⟨_, ⟨hmem, rfl⟩, fun c hc => hc.2.symm⟩, by decide, by decide⟩

/-! ## `_.groupBy` -/

theorem firstKeys_snoc {α : Type} (key : α → String) (xs : List α) (x : α) :
    firstKeys key (xs ++ [x]) =
      if key x ∈ firstKeys key xs then firstKeys key xs else firstKeys key xs ++ [key x] := by
  simp [firstKeys, List.foldl_append]

theorem groupBy_snoc {α : Type} (key : α → String) (xs : List α) (x : α) :
    groupBy key (xs ++ [x]) = groupInsert key (groupBy key xs) x := by
  simp [groupBy, List.foldl_append]

theorem mem_firstKeys {α : Type} (key : α → String) (xs : List α) (k : String) :
    k ∈ firstKeys key xs ↔ ∃ x ∈ xs, key x = k := by
  induction xs using List.reverseRecOn generalizing k with
  | nil => simp [firstKeys]
  | append_singleton xs x ih =>
    rw [firstKeys_snoc]
    split_ifs with hx
    · rw [ih]
      constructor
      · rintro ⟨y, hy, rfl⟩; exact ⟨y, by simp [hy], rfl⟩
      · rintro ⟨y, hy, rfl⟩
        rcases List.mem_append.1 hy with hy | hy
        · exact ⟨y, hy, rfl⟩
        · rw [List.mem_singleton.1 hy]
          exact (ih (key x)).1 hx
    · rw [List.mem_append, ih]
      constructor
      · rintro (⟨y, hy, rfl⟩ | hk)
        · exact ⟨y, by simp [hy], rfl⟩
        · exact ⟨x, by simp, (List.mem_singleton.1 hk).symm⟩
      · rintro ⟨y, hy, rfl⟩
        rcases List.mem_append.1 hy with hy | hy
        · exact .inl ⟨y, hy, rfl⟩
        · rw [List.mem_singleton.1 hy]
          exact .inr (by simp)

theorem nodup_firstKeys {α : Type} (key : α → String) (xs : List α) :
    (firstKeys key xs).Nodup := by
  induction xs using List.reverseRecOn with
  | nil => simp [firstKeys]
  | append_singleton xs x ih =>
    rw [firstKeys_snoc]
    split_ifs with hx
    · exact ih
    · rw [List.nodup_append]
      refine ⟨ih, List.nodup_singleton _, ?_⟩
      intro a ha hb
      rw [List.mem_singleton.1 hb] at ha
      exact hx ha

theorem groupBy_eq {α : Type} (key : α → String) (xs : List α) :
    groupBy key xs =
      (firstKeys key xs).map (fun k => (k, xs.filter (fun x => key x == k))) := by
  induction xs using List.reverseRecOn with
  | nil => simp [groupBy, firstKeys]
  | append_singleton xs x ih =>
    rw [groupBy_snoc, firstKeys_snoc, ih]
    unfold groupInsert
    by_cases hx : key x ∈ firstKeys key xs
    · have hany : ((firstKeys key xs).map
          (fun k => (k, xs.filter (fun y => key y == k)))).any (fun g => g.1 == key x) = true := by
        rw [List.any_eq_true]
        exact ⟨(key x, xs.filter (fun y => key y == key x)),
          List.mem_map.2 ⟨key x, hx, rfl⟩, by simp⟩
      rw [if_pos hany, if_pos hx, List.map_map]
      apply List.map_congr_left
      intro k _
      by_cases hk : k = key x
      · subst hk
        simp [List.filter_append]
      · have hk' : ¬ key x = k := fun h => hk h.symm
        simp [List.filter_append, hk, hk']
    · have hany : ((firstKeys key xs).map
          (fun k => (k, xs.filter (fun y => key y == k)))).any (fun g => g.1 == key x) = false := by
        rw [Bool.eq_false_iff]
        intro h
        rw [List.any_eq_true] at h
        obtain ⟨g, hg, hgk⟩ := h
        obtain ⟨k, hk, rfl⟩ := List.mem_map.1 hg
        simp only [beq_iff_eq] at hgk
        exact hx (hgk ▸ hk)
      rw [hany, if_neg hx, List.map_append]
      simp only [Bool.false_eq_true, if_false, List.map_cons, List.map_nil]
      congr 1
      · apply List.map_congr_left
        intro k hk
        have hk' : ¬ key x = k := fun h => hx (h ▸ hk)
        simp [List.filter_append, hk']
      · have hnone : xs.filter (fun y => key y == key x) = [] := by
          rw [List.filter_eq_nil_iff]
          intro y hy hyk
          simp only [beq_iff_eq] at hyk
          exact hx ((mem_firstKeys key xs _).2 ⟨y, hy, hyk⟩)
        simp [List.filter_append, hnone]

/-! ## Sums of times -/

/-! ## What `processTimeData` emits -/

theorem firstKeys_map {α β : Type} (key : β → String) (g : α → β) (xs : List α) :
    firstKeys key (xs.map g) = firstKeys (fun x => key (g x)) xs := by
  simp [firstKeys, List.foldl_map]

theorem sumBy_snoc (y : JSNum) (ys : List JSNum) (x : JSNum) :
    sumBy (y :: ys ++ [x]) = (sumBy (y :: ys)).add x := by
  simp [sumBy, List.foldl_append]

theorem sumBy_eq_leftSum (xs : List JSNum) : sumBy xs = leftSum xs := by
  induction xs using List.reverseRecOn with
  | nil => rfl
  | append_singleton ys x ih =>
    cases ys with
    | nil => rfl
    | cons y ys =>
      rw [sumBy_snoc, ih]
      unfold leftSum
      rw [List.reverse_append, List.reverse_singleton, List.singleton_append]
      cases hr : (y :: ys).reverse with
      | nil => simp at hr
      | cons z rest => rfl

/-! ## Whole numbers below 2^53 are added without rounding -/

theorem isWhole_iff {x : JSNum} : x.isWhole = true ↔ ∃ n : ℕ, x = .fin n := by
  cases x with
  | fin q =>
    simp only [JSNum.isWhole, decide_eq_true_eq]
    constructor
    · intro h
      exact ⟨_, congrArg _ h⟩
    · rintro ⟨n, hn⟩
      injection hn with hn
      subst hn
      simp
  | inf => simp [JSNum.isWhole]
  | nan => simp [JSNum.isWhole]

theorem whole_sum_nonneg (xs : List JSNum) (hx : ∀ x ∈ xs, x.isWhole = true) :
    0 ≤ (xs.map JSNum.toRat).sum := by
  apply List.sum_nonneg
  intro q hq
  obtain ⟨x, hxm, rfl⟩ := List.mem_map.1 hq
  obtain ⟨n, rfl⟩ := isWhole_iff.1 (hx x hxm)
  exact Nat.cast_nonneg n

theorem foldl_add_whole (xs : List JSNum) (a : ℕ) (hx : ∀ x ∈ xs, x.isWhole = true)
    (hs : (a : ℚ) + (xs.map JSNum.toRat).sum < 2 ^ 53) :
    xs.foldl JSNum.add (.fin a) = .fin (a + (xs.map JSNum.toRat).sum) := by
  induction xs generalizing a with
  | nil => simp
  | cons x xs ih =>
    obtain ⟨n, rfl⟩ := isWhole_iff.1 (hx x (by simp))
    have hrest := whole_sum_nonneg xs (fun y hy => hx y (by simp [hy]))
    simp only [List.map_cons, List.sum_cons, JSNum.toRat] at hs
    have han : a + n < 2 ^ 53 := by
      have : ((a + n : ℕ) : ℚ) < 2 ^ 53 := by
        push_cast
        linarith
      exact_mod_cast this
    have hadd : (JSNum.fin a).add (.fin n) = .fin ((a + n : ℕ) : ℚ) := by
      have := ofRat_natCast (a + n) han
      simpa [JSNum.add] using this
    rw [List.foldl_cons, hadd, ih (a + n) (fun y hy => hx y (by simp [hy]))
      (by push_cast; linarith)]
    simp only [List.map_cons, List.sum_cons, JSNum.toRat]
    push_cast
    rw [add_assoc]

theorem leftSum_whole (xs : List JSNum) (hx : ∀ x ∈ xs, x.isWhole = true)
    (hs : (xs.map JSNum.toRat).sum < 2 ^ 53) :
    leftSum xs = .fin (xs.map JSNum.toRat).sum := by
  rw [← sumBy_eq_leftSum]
  cases xs with
  | nil => rfl
  | cons x xs =>
    obtain ⟨n, rfl⟩ := isWhole_iff.1 (hx x (by simp))
    simp only [List.map_cons, List.sum_cons, JSNum.toRat] at hs ⊢
    exact foldl_add_whole xs n (fun y hy => hx y (by simp [hy])) hs

theorem sum_filter_le {α : Type} (f : α → ℚ) (p : α → Bool) (xs : List α)
    (h0 : ∀ x ∈ xs, 0 ≤ f x) : ((xs.filter p).map f).sum ≤ (xs.map f).sum := by
  induction xs with
  | nil => simp
  | cons x xs ih =>
    have hx := h0 x (by simp)
    have := ih (fun y hy => h0 y (by simp [hy]))
    rw [List.filter_cons]
    split_ifs <;> simp only [List.map_cons, List.sum_cons] <;> linarith

theorem sum_groups {α : Type} (key : α → String) (f : α → ℚ) (ks : List String)
    (hks : ks.Nodup) (xs : List α) (hmem : ∀ x ∈ xs, key x ∈ ks) :
    (ks.map (fun k => ((xs.filter (fun x => key x == k)).map f).sum)).sum = (xs.map f).sum := by
  rw [← List.sum_toFinset _ hks]
  induction xs with
  | nil => simp
  | cons x xs ih =>
    have hx : key x ∈ ks.toFinset := List.mem_toFinset.2 (hmem x (by simp))
    have e : ∀ k : String, (((x :: xs).filter (fun y => key y == k)).map f).sum =
        (if key x = k then f x else 0) + ((xs.filter (fun y => key y == k)).map f).sum := by
      intro k
      rw [List.filter_cons]
      by_cases hk : key x = k <;> simp [hk]
    simp only [e, Finset.sum_add_distrib, Finset.sum_ite_eq, hx, if_true]
    rw [ih (fun y hy => hmem y (by simp [hy]))]
    simp

theorem wholeTimes_iff (entries : List TimeEntry) :
    wholeTimes entries = true ↔
      (∀ entry ∈ entries, ∃ n : ℕ, entry.time = .fin n) ∧ exactSum entries < 2 ^ 53 := by
  simp only [wholeTimes, Bool.and_eq_true, List.all_eq_true, decide_eq_true_eq, isWhole_iff]

theorem leftSum_of_wholeTimes {entries : List TimeEntry} (h : wholeTimes entries = true)
    (p : TimeEntry → Bool) :
    leftSum ((entries.filter p).map (fun entry => entry.time)) =
      .fin (exactSum (entries.filter p)) := by
  simp only [wholeTimes, Bool.and_eq_true, List.all_eq_true, decide_eq_true_eq] at h
  have hnn : ∀ e ∈ entries, 0 ≤ e.time.toRat := by
    intro e he
    obtain ⟨n, hn⟩ := isWhole_iff.1 (h.1 e he)
    rw [hn]
    exact Nat.cast_nonneg n
  have hle := sum_filter_le (fun e : TimeEntry => e.time.toRat) p entries hnn
  have := leftSum_whole ((entries.filter p).map (fun entry => entry.time))
    (by
      intro x hx
      obtain ⟨e, he, rfl⟩ := List.mem_map.1 hx
      exact h.1 e (List.mem_filter.1 he).1)
    (by
      rw [List.map_map]
      exact lt_of_le_of_lt hle h.2)
  rw [this, List.map_map]
  rfl

theorem totals_of_wholeTimes (inputText : Str)
    (h : wholeTimes (validEntries inputText) = true) :
    grandTotal inputText = .fin (exactSum (validEntries inputText)) ∧
    ∀ c : String, categoryTotal inputText c =
      .fin (exactSum ((validEntries inputText).filter
        (fun entry => categorizeEntry entry.text == c))) := by
  refine ⟨?_, fun c => leftSum_of_wholeTimes h _⟩
  have := leftSum_of_wholeTimes h (fun _ => true)
  simpa [grandTotal] using this

theorem exactSum_categories (inputText : Str) :
    ((firstKeys entryCategory (validEntries inputText)).map (fun c =>
      exactSum ((validEntries inputText).filter
        (fun entry => categorizeEntry entry.text == c)))).sum =
      exactSum (validEntries inputText) :=
  sum_groups entryCategory (fun e : TimeEntry => e.time.toRat) _
    (nodup_firstKeys _ _) _ (fun x hx => (mem_firstKeys _ _ _).2 ⟨x, hx, rfl⟩)

theorem whole_sum_nat (xs : List JSNum) (hx : ∀ x ∈ xs, x.isWhole = true) :
    ∃ n : ℕ, (xs.map JSNum.toRat).sum = n := by
  induction xs with
  | nil => exact ⟨0, by simp⟩
  | cons x xs ih =>
    obtain ⟨n, rfl⟩ := isWhole_iff.1 (hx x (by simp))
    obtain ⟨m, hm⟩ := ih (fun y hy => hx y (by simp [hy]))
    exact ⟨n + m, by simp [JSNum.toRat, hm]⟩

theorem leftSum_categoryTotals (inputText : Str)
    (h : wholeTimes (validEntries inputText) = true) :
    leftSum ((firstKeys entryCategory (validEntries inputText)).map (categoryTotal inputText)) =
      grandTotal inputText := by
  obtain ⟨hG, hT⟩ := totals_of_wholeTimes inputText h
  have hw := h
  simp only [wholeTimes, Bool.and_eq_true, List.all_eq_true, decide_eq_true_eq] at hw
  have hmap : (firstKeys entryCategory (validEntries inputText)).map (categoryTotal inputText) =
      (firstKeys entryCategory (validEntries inputText)).map (fun c =>
        JSNum.fin (exactSum ((validEntries inputText).filter
          (fun entry => categorizeEntry entry.text == c)))) :=
    List.map_congr_left (fun c _ => hT c)
  have hsum : (((firstKeys entryCategory (validEntries inputText)).map (fun c =>
        JSNum.fin (exactSum ((validEntries inputText).filter
          (fun entry => categorizeEntry entry.text == c))))).map JSNum.toRat).sum =
      exactSum (validEntries inputText) := by
    rw [List.map_map]
    exact exactSum_categories inputText
  rw [hmap, leftSum_whole _ ?_ (by rw [hsum]; exact hw.2), hsum, hG]
  intro x hx
  obtain ⟨c, -, rfl⟩ := List.mem_map.1 hx
  obtain ⟨n, hn⟩ := whole_sum_nat (((validEntries inputText).filter
    (fun entry => categorizeEntry entry.text == c)).map (fun entry => entry.time))
    (by
      intro y hy
      obtain ⟨e, he, rfl⟩ := List.mem_map.1 hy
      exact hw.1 e (List.mem_filter.1 he).1)
  rw [List.map_map] at hn
  exact isWhole_iff.2 ⟨n, congrArg JSNum.fin hn⟩

theorem processTimeData_timeData (st : AppState) :
    (processTimeData st).timeData =
      (firstKeys entryCategory (validEntries st.inputText)).map (recordOf st.inputText) := by
  unfold processTimeData
  simp only
  split_ifs with h
  · have : validEntries st.inputText = [] := List.length_eq_zero.1 h
    simp [this, firstKeys]
  · simp only [groupBy_eq, firstKeys_map, List.map_map]
    apply List.map_congr_left
    intro c _
    simp only [Function.comp, chartRecord, recordOf, categoryTotal, grandTotal, List.filter_map,
      List.map_map, entryCategory, ← sumBy_eq_leftSum]
    rfl

theorem processTimeData_error (st : AppState) :
    (processTimeData st).error =
      if validEntries st.inputText = [] then noEntriesMessage else "" := by
  unfold processTimeData
  simp only [List.length_eq_zero]
  split_ifs <;> rfl

theorem processTimeData_inputText (st : AppState) :
    (processTimeData st).inputText = st.inputText := by
  unfold processTimeData
  simp only
  split_ifs <;> rfl

theorem round1_bounds (q : ℚ) :
    (∃ n : ℤ, round1 q = n / 10) ∧ q - 1 / 20 < round1 q ∧ round1 q ≤ q + 1 / 20 := by
  unfold round1
  have h1 := Int.floor_le (q * 10 + 1 / 2)
  have h2 := Int.lt_floor_add_one (q * 10 + 1 / 2)
  refine ⟨⟨_, rfl⟩, ?_, ?_⟩
  · rw [lt_div_iff₀ (by norm_num : (0 : ℚ) < 10)]
    linarith
  · rw [div_le_iff₀ (by norm_num : (0 : ℚ) < 10)]
    linarith

/-- C7 as stated fails: on the single line `[9 m] lunch` the grand total and the
total of the one category are 9, 9 / 60 rounded to one decimal place is 0.2, and the
`hours` of the record is 0.1, since the binary64 quotient is below 0.15; on the single
line `[15 m] lunch` the tie 0.25 goes up, to 0.3.  On the lines `[23 m] lunch` and
`[57 m] call` the grand total is 80, the shares are 28.75 and 71.25 and the values are
28.7 and 71.3. -/
theorem record_rounding_counterexample :
    (processTimeData ⟨str "[9 m] lunch", [], ""⟩).timeData =
      [⟨"Miscellaneous", .fin 100, .ofRat (1 / 10)⟩] ∧
    grandTotal (str "[9 m] lunch") = .fin 9 ∧
    categoryTotal (str "[9 m] lunch") "Miscellaneous" = .fin 9 ∧
    round1 (9 / 60) = 2 / 10 ∧
    JSNum.ofRat (1 / 10) ≠ JSNum.ofRat (round1 (9 / 60)) ∧
    (JSNum.fin 9).div (.fin 60) = .fin (5404319552844595 / 36028797018963968) ∧
    (5404319552844595 / 36028797018963968 : ℚ) < 15 / 100 ∧
    (processTimeData ⟨str "[15 m] lunch", [], ""⟩).timeData =
      [⟨"Miscellaneous", .fin 100, .ofRat (3 / 10)⟩] ∧
    (processTimeData ⟨str "[23 m] lunch\n[57 m] call", [], ""⟩).timeData =
      [⟨"Miscellaneous", .ofRat (287 / 10), .ofRat (4 / 10)⟩,
       ⟨"Meetings & Calls", .ofRat (713 / 10), .ofRat (9 / 10)⟩] ∧
    grandTotal (str "[23 m] lunch\n[57 m] call") = .fin 80 ∧
    categoryTotal (str "[23 m] lunch\n[57 m] call") "Miscellaneous" = .fin 23 ∧
    round1 (23 / 80 * 100) = 288 / 10 ∧
    JSNum.ofRat (287 / 10) ≠ JSNum.ofRat (round1 (23 / 80 * 100)) := by
  refine ⟨by decide!, by decide!, by decide!, by decide!, by decide!, by decide!, by norm_num,
    by decide!, by decide!, by decide!, by decide!, by decide!, by decide!⟩

/-- C7, amended: every record that `processTimeData` emits for a category `c` has
`value = toFixed1 (T_c / G * 100)` and `hours = toFixed1 (T_c / 60)`, where `/` and
`*` are binary64 division and multiplication, `T_c` is the binary64 sum, from left to
right, of `time` over exactly the entries classified as `c`, `G` that sum over all
entries, and `toFixed1` takes a binary64 value below 10^21 to the binary64 value
nearest to the multiple of 1/10 that is nearest to its exact value (the larger
multiple of two).  When every `time` is a whole number and the exact sum of all is
below 2^53, `T_c` and `G` are the exact sums. -/
theorem processTimeData_record_values (st : AppState) (r : ChartRecord)
    (hr : r ∈ (processTimeData st).timeData) :
    (∃ e ∈ validEntries st.inputText, categorizeEntry e.text = r.name) ∧
    r.value = toFixed1 (((categoryTotal st.inputText r.name).div
      (grandTotal st.inputText)).mul (.fin 100)) ∧
    r.hours = toFixed1 ((categoryTotal st.inputText r.name).div (.fin 60)) ∧
    (∀ q : ℚ, q < 10 ^ 21 → toFixed1 (.fin q) = .ofRat (round1 q)) ∧
    (∀ q : ℚ, (∃ n : ℤ, round1 q = n / 10) ∧ q - 1 / 20 < round1 q ∧ round1 q ≤ q + 1 / 20) ∧
    (wholeTimes (validEntries st.inputText) = true →
      grandTotal st.inputText = .fin (exactSum (validEntries st.inputText)) ∧
      categoryTotal st.inputText r.name =
        .fin (exactSum ((validEntries st.inputText).filter
          (fun entry => categorizeEntry entry.text == r.name)))) := by
  rw [processTimeData_timeData] at hr
  obtain ⟨c, hc, rfl⟩ := List.mem_map.1 hr
  refine ⟨(mem_firstKeys _ _ _).1 hc, rfl, rfl, ?_, round1_bounds, ?_⟩
  · intro q hq
    simp only [toFixed1, hq, if_true]
  · intro hw
    exact ⟨(totals_of_wholeTimes _ hw).1, (totals_of_wholeTimes _ hw).2 _⟩

/-- C7 amended, at the record of Meetings & Calls for the two lines
`[1 hour] Weekly team sync meeting` and `[30 mins] Code review`: the totals are 60
and 90, and the value is 66.7. -/
theorem processTimeData_record_values_witness :
    (⟨"Meetings & Calls", .ofRat (667 / 10), .fin 1⟩ : ChartRecord) ∈
      (processTimeData ⟨str "[1 hour] Weekly team sync meeting\n[30 mins] Code review",
        [], ""⟩).timeData ∧
    categoryTotal (str "[1 hour] Weekly team sync meeting\n[30 mins] Code review")
      "Meetings & Calls" = .fin 60 ∧
    grandTotal (str "[1 hour] Weekly team sync meeting\n[30 mins] Code review") = .fin 90 ∧
    JSNum.ofRat (667 / 10) =
      toFixed1 (((categoryTotal (str "[1 hour] Weekly team sync meeting\n[30 mins] Code review")
        "Meetings & Calls").div
        (grandTotal (str "[1 hour] Weekly team sync meeting\n[30 mins] Code review"))).mul
        (.fin 100)) :=
  have hr : (⟨"Meetings & Calls", .ofRat (667 / 10), .fin 1⟩ : ChartRecord) ∈
      (processTimeData ⟨str "[1 hour] Weekly team sync meeting\n[30 mins] Code review",
        [], ""⟩).timeData := by decide!
  ⟨hr, by decide!, by decide!, (processTimeData_record_values _ _ hr).2.1⟩

theorem firstKeys_eq_nil_iff {α : Type} (key : α → String) (xs : List α) :
    firstKeys key xs = [] ↔ xs = [] := by
  constructor
  · intro h
    cases xs with
    | nil => rfl
    | cons x xs =>
      have := (mem_firstKeys key (x :: xs) (key x)).2 ⟨x, by simp, rfl⟩
      rw [h] at this
      simp at this
  · rintro rfl
    rfl

theorem HasTag.trim_ne_nil {line : Str} (h : HasTag line) : trim line ≠ [] := by
  intro ht
  obtain ⟨a, b, hs, ha, hb, -, -⟩ := trim_spec line
  rw [ht, List.append_nil] at hs
  obtain ⟨pre, tag, post, num, u, hl, ws, -, -, -, rfl⟩ := h
  have hmem : 0x5B ∈ line := by rw [hl]; simp
  rw [hs] at hmem
  rcases List.mem_append.1 hmem with hm | hm
  · exact absurd (ha _ hm) (by decide)
  · exact absurd (hb _ hm) (by decide)

theorem validEntries_eq_nil_iff (inputText : Str) :
    validEntries inputText = [] ↔ ∀ line ∈ splitLines inputText, ¬ HasTag line := by
  unfold validEntries
  rw [List.filterMap_eq_nil_iff]
  constructor
  · intro h line hline ht
    have hne := ht.trim_ne_nil
    have hmem : line ∈ (splitLines inputText).filter (fun line => !(trim line).isEmpty) := by
      rw [List.mem_filter]
      exact ⟨hline, by simpa using hne⟩
    exact parseTimeEntry_eq_none_iff.1 (h line hmem) ht
  · intro h line hline
    exact parseTimeEntry_eq_none_iff.2 (h line (List.mem_of_mem_filter hline))

/-- C8: on the single line `[0 mins] Idle time` the grand total is 0 and
`processTimeData` clears the error and emits one record, for Miscellaneous, whose
`value` is `NaN` (0/0) and whose `hours` is 0; a run without a valid entry, such as
the empty text, sets the error message and the empty record list. -/
theorem processTimeData_zero_total :
    validEntries (str "[0 mins] Idle time") =
      [⟨.fin 0, str "Idle time", .fin 0, str "mins"⟩] ∧
    grandTotal (str "[0 mins] Idle time") = .fin 0 ∧
    processTimeData ⟨str "[0 mins] Idle time", [], ""⟩ =
      ⟨str "[0 mins] Idle time", [⟨"Miscellaneous", .nan, .fin 0⟩], ""⟩ ∧
    processTimeData ⟨[], [], ""⟩ = ⟨[], [], noEntriesMessage⟩ := by
  refine ⟨by decide!, by decide!, by decide!, by decide!⟩

/-- C9: when no line of the input text has a tag of the grammar, which is exactly
when no line yields an entry, `processTimeData` sets the error to the message that
begins `No valid time entries found` and the record list to empty; when some line
yields an entry it sets the error to the empty string and the record list to a
non-empty list.  So after a run exactly one of `records non-empty, no error` and
`records empty, error non-empty` holds. -/
theorem processTimeData_error_or_records (st : AppState) :
    (validEntries st.inputText = [] ↔ ∀ line ∈ splitLines st.inputText, ¬ HasTag line) ∧
    (validEntries st.inputText = [] →
      (processTimeData st).error = noEntriesMessage ∧ (processTimeData st).timeData = []) ∧
    (validEntries st.inputText ≠ [] →
      (processTimeData st).error = "" ∧ (processTimeData st).timeData ≠ []) ∧
    (((processTimeData st).timeData ≠ [] ∧ (processTimeData st).error = "") ∨
      ((processTimeData st).timeData = [] ∧ (processTimeData st).error ≠ "")) ∧
    ¬ (((processTimeData st).timeData ≠ [] ∧ (processTimeData st).error = "") ∧
      ((processTimeData st).timeData = [] ∧ (processTimeData st).error ≠ "")) ∧
    str "No valid time entries found" <+: str noEntriesMessage ∧
    processTimeData ⟨str "  \nPlanning session\n", [], ""⟩ =
      ⟨str "  \nPlanning session\n", [], noEntriesMessage⟩ := by
  have hd : (processTimeData st).timeData = [] ↔ validEntries st.inputText = [] := by
    rw [processTimeData_timeData, List.map_eq_nil_iff, firstKeys_eq_nil_iff]
  have he := processTimeData_error st
  have hmsg : noEntriesMessage ≠ "" := by decide
  refine ⟨validEntries_eq_nil_iff _, ?_, ?_, ?_, ?_, by decide, by decide⟩
  · intro h
    exact ⟨by rw [he, if_pos h], hd.2 h⟩
  · intro h
    exact ⟨by rw [he, if_neg h], fun h' => h (hd.1 h')⟩
  · by_cases h : validEntries st.inputText = []
    · exact .inr ⟨hd.2 h, by rw [he, if_pos h]; exact hmsg⟩
    · exact .inl ⟨fun h' => h (hd.1 h'), by rw [he, if_neg h]⟩
  · rintro ⟨⟨h1, -⟩, h2, -⟩
    exact h1 h2

/-! ## The sum of the percentages -/

theorem length_firstKeys {α : Type} (key : α → String) (xs : List α) :
    (firstKeys key xs).length = (xs.map key).toFinset.card := by
  rw [← List.toFinset_card_of_nodup (nodup_firstKeys key xs)]
  congr 1
  ext k
  simp only [List.mem_toFinset, mem_firstKeys, List.mem_map]

/-- C10: the text made of the one line `[1000...0 m] x`, whose number has 310 digits,
has one category and the positive grand total `Infinity`; the one record emitted has
the `value` `NaN`, so the values do not sum to within 0.1 of 100. -/
theorem percentages_sum_at_infinite_total :
    (grandTotal hugeLine).IsPositive ∧ categoryCount hugeLine = 1 ∧
    (processTimeData ⟨hugeLine, [], ""⟩).timeData = [⟨"Miscellaneous", .nan, .inf⟩] ∧
    ¬ PercentagesNear100 (processTimeData ⟨hugeLine, [], ""⟩).timeData
      (categoryCount hugeLine) := by
  have hG : grandTotal hugeLine = .inf := by decide!
  have hT : (processTimeData ⟨hugeLine, [], ""⟩).timeData =
      [⟨"Miscellaneous", .nan, .inf⟩] := by decide!
  have hE : validEntries hugeLine = [⟨.inf, str "x", .inf, str "m"⟩] := by decide!
  refine ⟨by rw [hG]; trivial, ?_, hT, ?_⟩
  · unfold categoryCount
    rw [hE]
    rfl
  · rintro ⟨vs, hvs, -⟩
    rw [hT] at hvs
    cases vs with
    | nil => simp at hvs
    | cons v vs => simp at hvs

/-! ## Grouping loses and duplicates nothing -/

theorem groups_perm {α : Type} [DecidableEq α] (key : α → String) (ks : List String)
    (hks : ks.Nodup) (xs : List α) (hmem : ∀ x ∈ xs, key x ∈ ks) :
    (ks.flatMap (fun k => xs.filter (fun x => key x == k))).Perm xs := by
  rw [List.perm_iff_count]
  intro a
  have e : ∀ k : String, List.count a (xs.filter (fun x => key x == k)) =
      if key a = k then List.count a xs else 0 := by
    intro k
    by_cases hk : key a = k
    · rw [if_pos hk, List.count_filter (by simp [hk])]
    · rw [if_neg hk, List.count_eq_zero]
      intro h
      exact hk (by simpa using (List.mem_filter.1 h).2)
  have e2 : (List.count a ∘ fun k => xs.filter (fun x => key x == k)) =
      fun k => if key a = k then List.count a xs else 0 := funext e
  rw [List.flatMap_def, List.count_flatten, List.map_map, e2, ← List.sum_toFinset _ hks,
    Finset.sum_ite_eq]
  by_cases ha : a ∈ xs
  · rw [if_pos (List.mem_toFinset.2 (hmem a ha))]
  · rw [List.count_eq_zero.2 ha]
    split_ifs <;> rfl

theorem groupBy_perm {α : Type} [DecidableEq α] (key : α → String) (xs : List α) :
    ((groupBy key xs).flatMap Prod.snd).Perm xs := by
  rw [groupBy_eq, List.flatMap_def, List.map_map, ← List.flatMap_def]
  exact groups_perm key _ (nodup_firstKeys key xs) xs
    (fun x hx => (mem_firstKeys key xs _).2 ⟨x, hx, rfl⟩)

theorem groupBy_key {α : Type} (key : α → String) (xs : List α) :
    ∀ g ∈ groupBy key xs, g.2 ≠ [] ∧ ∀ x ∈ g.2, x ∈ xs ∧ key x = g.1 := by
  intro g hg
  rw [groupBy_eq] at hg
  obtain ⟨k, hk, rfl⟩ := List.mem_map.1 hg
  obtain ⟨y, hy, hyk⟩ := (mem_firstKeys key xs k).1 hk
  refine ⟨?_, ?_⟩
  · intro h
    have : y ∈ xs.filter (fun x => key x == k) := List.mem_filter.2 ⟨hy, by simp [hyk]⟩
    simp only at h
    rw [h] at this
    simp at this
  · intro x hx
    obtain ⟨h1, h2⟩ := List.mem_filter.1 hx
    exact ⟨h1, by simpa using h2⟩

theorem groupedData_keys (inputText : Str) :
    (groupedData inputText).map Prod.fst = firstKeys entryCategory (validEntries inputText) := by
  unfold groupedData categorizeAll
  rw [groupBy_eq, List.map_map, firstKeys_map]
  simp only [Function.comp_def, List.map_id']
  rfl

theorem processTimeData_names (st : AppState) :
    (processTimeData st).timeData.map (fun r => r.name) =
      firstKeys entryCategory (validEntries st.inputText) := by
  rw [processTimeData_timeData, List.map_map]
  simp only [Function.comp_def, recordOf, List.map_id']

theorem processTimeData_groups (st : AppState) :
    (processTimeData st).timeData =
      (groupedData st.inputText).map (chartRecord (grandTotal st.inputText)) := by
  unfold processTimeData groupedData categorizeAll grandTotal
  rw [← sumBy_eq_leftSum]
  simp only
  split_ifs with h
  · have : validEntries st.inputText = [] := List.length_eq_zero.1 h
    simp [this, groupBy]
  · rfl

/-! ## The totals of the categories add up to the grand total -/

theorem groupedData_total (inputText : Str) :
    ∀ g ∈ groupedData inputText,
      sumBy (g.2.map (fun item => item.time)) = categoryTotal inputText g.1 := by
  intro g hg
  unfold groupedData categorizeAll at hg
  rw [groupBy_eq] at hg
  obtain ⟨k, -, rfl⟩ := List.mem_map.1 hg
  simp only [categoryTotal, List.filter_map, List.map_map, ← sumBy_eq_leftSum]
  rfl

/-- C11 as stated fails: on the lines `[10000000000000000 m] call`, `[1 m] lunch`,
`[1 m] lunch` the grand total is 10^16 (adding 1 to 10^16 twice leaves it as it is),
the totals of the two categories are 10^16 and 2, and these add up to 10^16 + 2. -/
theorem totals_add_up_counterexample :
    grandTotal (str "[10000000000000000 m] call\n[1 m] lunch\n[1 m] lunch") = .fin (10 ^ 16) ∧
    (processTimeData ⟨str "[10000000000000000 m] call\n[1 m] lunch\n[1 m] lunch",
      [], ""⟩).timeData.map (fun r => r.name) = ["Meetings & Calls", "Miscellaneous"] ∧
    categoryTotal (str "[10000000000000000 m] call\n[1 m] lunch\n[1 m] lunch")
      "Meetings & Calls" = .fin (10 ^ 16) ∧
    categoryTotal (str "[10000000000000000 m] call\n[1 m] lunch\n[1 m] lunch")
      "Miscellaneous" = .fin 2 ∧
    leftSum [.fin (10 ^ 16), .fin 2] = .fin (10 ^ 16 + 2) ∧
    leftSum (((processTimeData ⟨str "[10000000000000000 m] call\n[1 m] lunch\n[1 m] lunch",
      [], ""⟩).timeData.map (fun r => r.name)).map
      (categoryTotal (str "[10000000000000000 m] call\n[1 m] lunch\n[1 m] lunch"))) ≠
      grandTotal (str "[10000000000000000 m] call\n[1 m] lunch\n[1 m] lunch") ∧
    ((JSNum.fin (10 ^ 16)).add (.fin 1)).add (.fin 1) = .fin (10 ^ 16) ∧
    (JSNum.fin (10 ^ 16)).add ((JSNum.fin 1).add (.fin 1)) = .fin (10 ^ 16 + 2) := by
  refine ⟨by decide!, by decide!, by decide!, by decide!, by decide!, by decide!, by decide!,
    by decide!⟩

/-- C11, amended: the names of the records that `processTimeData` emits are pairwise
distinct; a name is among them exactly when it is the category of some valid entry;
every valid entry has its category as the name of exactly one record; the groups
behind the records are a rearrangement of the categorized entries, none is empty and
each holds only entries of its own category; and the unrounded total of each group is
the binary64 sum, from left to right, of `time` over exactly the valid entries of
its category.  The exact sums of the categories add up to the exact sum of all
entries; and when every `time` is a whole number and the exact sum of all is below
2^53, the totals are these exact sums and add up to the grand total. -/
theorem processTimeData_grouping (st : AppState) :
    ((processTimeData st).timeData.map (fun r => r.name)).Nodup ∧
    (∀ c : String, c ∈ (processTimeData st).timeData.map (fun r => r.name) ↔
      ∃ e ∈ validEntries st.inputText, categorizeEntry e.text = c) ∧
    (∀ e ∈ validEntries st.inputText,
      ∃! r, r ∈ (processTimeData st).timeData ∧ r.name = categorizeEntry e.text) ∧
    (processTimeData st).timeData =
      (groupedData st.inputText).map (chartRecord (grandTotal st.inputText)) ∧
    ((groupedData st.inputText).flatMap Prod.snd).Perm
      (categorizeAll (validEntries st.inputText)) ∧
    (∀ g ∈ groupedData st.inputText, g.2 ≠ [] ∧ ∀ item ∈ g.2, item.category = g.1) ∧
    (∀ g ∈ groupedData st.inputText,
      sumBy (g.2.map (fun item => item.time)) = categoryTotal st.inputText g.1) ∧
    (((processTimeData st).timeData.map (fun r => r.name)).map (fun c =>
      exactSum ((validEntries st.inputText).filter
        (fun entry => categorizeEntry entry.text == c)))).sum =
      exactSum (validEntries st.inputText) ∧
    (wholeTimes (validEntries st.inputText) = true →
      grandTotal st.inputText = .fin (exactSum (validEntries st.inputText)) ∧
      (∀ c : String, categoryTotal st.inputText c =
        .fin (exactSum ((validEntries st.inputText).filter
          (fun entry => categorizeEntry entry.text == c)))) ∧
      leftSum (((processTimeData st).timeData.map (fun r => r.name)).map
        (categoryTotal st.inputText)) = grandTotal st.inputText) ∧
    wholeTimes (validEntries
      (str "[1 hour] Weekly team sync meeting\n[30 mins] Code review")) = true ∧
    wholeTimes (validEntries
      (str "[10000000000000000 m] call\n[1 m] lunch\n[1 m] lunch")) = false := by
  rw [processTimeData_names]
  refine ⟨nodup_firstKeys _ _, fun c => mem_firstKeys _ _ c, ?_, processTimeData_groups st,
    groupBy_perm _ _, ?_, groupedData_total _, exactSum_categories _,
    fun hw => ⟨(totals_of_wholeTimes _ hw).1, (totals_of_wholeTimes _ hw).2,
      leftSum_categoryTotals _ hw⟩, by decide!, by decide!⟩
  · intro e he
    rw [processTimeData_timeData]
    refine ⟨recordOf st.inputText (categorizeEntry e.text),
      ⟨List.mem_map.2 ⟨_, (mem_firstKeys _ _ _).2 ⟨e, he, rfl⟩, rfl⟩, rfl⟩, ?_⟩
    rintro r ⟨hr, hn⟩
    obtain ⟨c, -, rfl⟩ := List.mem_map.1 hr
    have : c = categorizeEntry e.text := hn
    rw [this]
  · intro g hg
    have := groupBy_key _ _ g hg
    exact ⟨this.1, fun item hi => (this.2 item hi).2⟩

/-! ## The run is a function of the valid entries -/

theorem processTimeData_eq (st : AppState) :
    processTimeData st =
      ⟨st.inputText,
       (firstKeys entryCategory (validEntries st.inputText)).map (recordOf st.inputText),
       if validEntries st.inputText = [] then noEntriesMessage else ""⟩ := by
  have h1 := processTimeData_inputText st
  have h2 := processTimeData_timeData st
  have h3 := processTimeData_error st
  cases h : processTimeData st with
  | mk i t e =>
    rw [h] at h1 h2 h3
    simp only at h1 h2 h3
    rw [h1, h2, h3]

theorem processTimeData_congr {a b : Str} (h : validEntries a = validEntries b)
    (td td' : List ChartRecord) (err err' : String) :
    (processTimeData ⟨a, td, err⟩).timeData = (processTimeData ⟨b, td', err'⟩).timeData ∧
    (processTimeData ⟨a, td, err⟩).error = (processTimeData ⟨b, td', err'⟩).error := by
  have hr : recordOf a = recordOf b := by
    funext c
    simp only [recordOf, categoryTotal, grandTotal, h]
  simp only [processTimeData_timeData, processTimeData_error, hr, h, and_self]

/-- C12: on the two lines `[1 hour] Weekly team sync meeting` and
`[30 mins] Code review`, whatever the state before, `processTimeData` parses two
entries of 60 and 30 minutes with the texts `Weekly team sync meeting` and
`Code review`, puts them in Meetings & Calls and Research & Documentation, totals 90
minutes, and sets the two records (Meetings & Calls, 66.7, 1) and (Research &
Documentation, 33.3, 0.5) and the empty error. -/
theorem processTimeData_scenario_A (td : List ChartRecord) (err : String) :
    validEntries (str "[1 hour] Weekly team sync meeting\n[30 mins] Code review") =
      [⟨.fin 60, str "Weekly team sync meeting", .fin 1, str "hour"⟩,
       ⟨.fin 30, str "Code review", .fin 30, str "mins"⟩] ∧
    categorizeEntry (str "Weekly team sync meeting") = "Meetings & Calls" ∧
    categorizeEntry (str "Code review") = "Research & Documentation" ∧
    grandTotal (str "[1 hour] Weekly team sync meeting\n[30 mins] Code review") = .fin 90 ∧
    processTimeData ⟨str "[1 hour] Weekly team sync meeting\n[30 mins] Code review", td, err⟩ =
      ⟨str "[1 hour] Weekly team sync meeting\n[30 mins] Code review",
       [⟨"Meetings & Calls", .ofRat (667 / 10), .fin 1⟩,
        ⟨"Research & Documentation", .ofRat (333 / 10), .fin (1 / 2)⟩],
       ""⟩ := by
  have hv : validEntries (str "[1 hour] Weekly team sync meeting\n[30 mins] Code review") =
      [⟨.fin 60, str "Weekly team sync meeting", .fin 1, str "hour"⟩,
       ⟨.fin 30, str "Code review", .fin 30, str "mins"⟩] := by decide!
  have ht : (firstKeys entryCategory
      (validEntries (str "[1 hour] Weekly team sync meeting\n[30 mins] Code review"))).map
      (recordOf (str "[1 hour] Weekly team sync meeting\n[30 mins] Code review")) =
      [⟨"Meetings & Calls", .ofRat (667 / 10), .fin 1⟩,
        ⟨"Research & Documentation", .ofRat (333 / 10), .fin (1 / 2)⟩] := by decide!
  refine ⟨hv, by decide, by decide, by decide!, ?_⟩
  rw [processTimeData_eq]
  simp only
  rw [ht, if_neg (by rw [hv]; exact List.cons_ne_nil _ _)]

/-! ## Lines without a tag do not matter -/

theorem splitLines_ne_nil (s : Str) : splitLines s ≠ [] := by
  cases s with
  | nil => simp [splitLines]
  | cons c s =>
    unfold splitLines
    split_ifs
    · simp
    · split <;> simp

theorem splitLines_append (a b : Str) :
    splitLines (a ++ 0x0A :: b) = splitLines a ++ splitLines b := by
  induction a with
  | nil => simp [splitLines]
  | cons c a ih =>
    rw [List.cons_append, splitLines, ih]
    by_cases hc : c = 0x0A
    · simp [hc, splitLines]
    · rw [if_neg hc]
      cases hs : splitLines a with
      | nil => exact absurd hs (splitLines_ne_nil a)
      | cons l ls =>
        simp only [List.cons_append]
        rw [splitLines, if_neg hc, hs]
        rfl

theorem validEntries_append (a b : Str) :
    validEntries (a ++ 0x0A :: b) = validEntries a ++ validEntries b := by
  unfold validEntries
  rw [splitLines_append, List.filter_append, List.filterMap_append]

theorem validEntries_nil : validEntries [] = [] := by decide

theorem validEntries_joinLines (ls : List Str) :
    validEntries (joinLines ls) = ls.flatMap validEntries := by
  induction ls with
  | nil => exact validEntries_nil
  | cons l ls ih =>
    cases ls with
    | nil => simp [joinLines]
    | cons l' ls =>
      rw [joinLines, validEntries_append, ih]
      simp

theorem mem_splitLines_sub (s : Str) : ∀ line ∈ splitLines s, line <:+: s := by
  induction s with
  | nil =>
    intro line h
    simp only [splitLines, List.mem_singleton] at h
    rw [h]
  | cons c s ih =>
    intro line h
    rw [splitLines] at h
    by_cases hc : c = 0x0A
    · rw [if_pos hc] at h
      rcases List.mem_cons.1 h with rfl | h
      · exact List.nil_infix
      · exact (ih line h).trans (List.suffix_cons c s).isInfix
    · rw [if_neg hc] at h
      cases hs : splitLines s with
      | nil => exact absurd hs (splitLines_ne_nil s)
      | cons l ls =>
        rw [hs] at h ih
        simp only [List.mem_cons] at h
        rcases h with rfl | h
        · -- the first line of `s` is a prefix of `s`
          have hp : ∀ (t : Str) (l : Str) (ls : List Str), splitLines t = l :: ls → l <+: t := by
            intro t
            induction t with
            | nil =>
              intro l ls ht
              simp only [splitLines, List.cons.injEq] at ht
              rw [← ht.1]
            | cons d t iht =>
              intro l ls ht
              rw [splitLines] at ht
              by_cases hd : d = 0x0A
              · rw [if_pos hd] at ht
                simp only [List.cons.injEq] at ht
                rw [← ht.1]
                exact List.nil_prefix
              · rw [if_neg hd] at ht
                cases ht' : splitLines t with
                | nil => exact absurd ht' (splitLines_ne_nil t)
                | cons m ms =>
                  rw [ht'] at ht
                  simp only [List.cons.injEq] at ht
                  rw [← ht.1]
                  exact (List.prefix_cons_inj d).2 (iht m ms ht')
          exact ((List.prefix_cons_inj c).2 (hp s l ls hs)).isInfix
        · exact (ih line (by simp [h])).trans (List.suffix_cons c s).isInfix

theorem HasTag.of_sub {a b : Str} (h : HasTag a) (hab : a <:+: b) : HasTag b := by
  obtain ⟨pre, tag, post, num, u, rfl, ht⟩ := h
  obtain ⟨s, t, rfl⟩ := hab
  exact ⟨s ++ pre, tag, post ++ t, num, u, by simp, ht⟩

theorem validEntries_of_no_tag {l : Str} (h : ¬ HasTag l) : validEntries l = [] := by
  rw [validEntries_eq_nil_iff]
  intro line hline ht
  exact h (ht.of_sub (mem_splitLines_sub l line hline))

theorem HasTag.bracket_mem {l : Str} (h : HasTag l) : 0x5B ∈ l := by
  obtain ⟨pre, tag, post, num, u, rfl, ws, -, -, -, rfl⟩ := h
  simp

/-- C13: a line that is empty, made of white space only, or without a substring
matching the tag grammar is silently excluded: the text made of the lines `A`, then
`L`, then `B`, and the text made of the lines `A`, then `B`, have the same valid
entries, and `processTimeData` sets the same record list and the same error for
both, whatever the state before. -/
theorem processTimeData_skips_line (A B : List Str) (L : Str)
    (hL : L = [] ∨ (∀ c ∈ L, isWhiteSpace c = true) ∨ ¬ HasTag L)
    (td td' : List ChartRecord) (err err' : String) :
    validEntries (joinLines (A ++ L :: B)) = validEntries (joinLines (A ++ B)) ∧
    (processTimeData ⟨joinLines (A ++ L :: B), td, err⟩).timeData =
      (processTimeData ⟨joinLines (A ++ B), td', err'⟩).timeData ∧
    (processTimeData ⟨joinLines (A ++ L :: B), td, err⟩).error =
      (processTimeData ⟨joinLines (A ++ B), td', err'⟩).error := by
  have hno : ¬ HasTag L := by
    rcases hL with rfl | hws | h
    · intro h
      have := h.bracket_mem
      simp at this
    · intro h
      exact absurd (hws _ h.bracket_mem) (by decide)
    · exact h
  have hv : validEntries (joinLines (A ++ L :: B)) = validEntries (joinLines (A ++ B)) := by
    rw [validEntries_joinLines, validEntries_joinLines]
    simp [validEntries_of_no_tag hno]
  exact ⟨hv, processTimeData_congr hv td td' err err'⟩

/-- C13, at the lines `[1 hour] a`, a line of two blanks, `[30 mins] b`. -/
theorem processTimeData_skips_line_witness :
    (([0x20, 0x20] : Str) = [] ∨ (∀ c ∈ ([0x20, 0x20] : Str), isWhiteSpace c = true) ∨
      ¬ HasTag [0x20, 0x20]) ∧
    (processTimeData ⟨joinLines ([str "[1 hour] a"] ++ [0x20, 0x20] :: [str "[30 mins] b"]),
        [], ""⟩).timeData =
      (processTimeData ⟨joinLines ([str "[1 hour] a"] ++ [str "[30 mins] b"]), [], ""⟩).timeData :=
  have hL : ([0x20, 0x20] : Str) = [] ∨ (∀ c ∈ ([0x20, 0x20] : Str), isWhiteSpace c = true) ∨
      ¬ HasTag [0x20, 0x20] := .inr (.inl (by decide))
  ⟨hL, (processTimeData_skips_line _ _ _ hL [] [] "" "").2.1⟩

/-! ## The numbers of an entry -/

theorem parseTimeEntry_values {line : Str} {e : TimeEntry} (h : parseTimeEntry line = some e) :
    ∃ d : ℚ, 0 ≤ d ∧ e.originalValue = JSNum.ofRat d ∧
      (e.time = JSNum.ofRat d ∨ e.time = (JSNum.ofRat d).mul (.fin 60)) := by
  have ht : HasTag line := by
    by_contra hn
    rw [parseTimeEntry_eq_none_iff.2 hn] at h
    exact Option.noConfusion h
  obtain ⟨pre, tag, post, num, u, hl⟩ := ht.exists_leftmost
  rw [parseTimeEntry_leftmost hl, Option.some.injEq] at h
  subst h
  refine ⟨decimalValue num, decimalValue_nonneg num, rfl, ?_⟩
  simp only
  split_ifs
  · exact .inr rfl
  · exact .inl rfl

/-- C14 as stated fails: the line `[0 mins] Idle time` yields an entry whose `time`
is 0, which is not above 0. -/
theorem parseTimeEntry_time_zero_counterexample :
    ∃ e, parseTimeEntry (str "[0 mins] Idle time") = some e ∧ e.time = .fin 0 ∧
      ¬ e.time.IsPositive :=
  ⟨⟨.fin 0, str "Idle time", .fin 0, str "mins"⟩, by decide!, rfl, by simp [JSNum.IsPositive]⟩

/-- C14, amended: every entry returned by `parseTimeEntry` has a `time` that is not
negative (and is a number, not `NaN`).  It can be 0 also when the number written is
above 0: the line `[0.000...01 m] x`, whose number is 10^-400, yields the time 0. -/
theorem parseTimeEntry_time_nonneg (line : Str) (e : TimeEntry)
    (h : parseTimeEntry line = some e) :
    e.time.IsNonneg ∧
    parseTimeEntry tinyLine = some ⟨.fin 0, str "x", .fin 0, str "m"⟩ ∧
    decimalValue (str "0." ++ List.replicate 399 0x30 ++ str "1") = 1 / 10 ^ 400 := by
  refine ⟨?_, by decide!, by decide!⟩
  obtain ⟨d, -, -, ht⟩ := parseTimeEntry_values h
  rcases ht with ht | ht <;> rw [ht]
  · exact ofRat_nonneg d
  · exact ofRat_mul_nonneg d

/-- C14 amended, at the line `[30 mins] Code review`. -/
theorem parseTimeEntry_time_nonneg_witness :
    parseTimeEntry (str "[30 mins] Code review") =
      some ⟨.fin 30, str "Code review", .fin 30, str "mins"⟩ ∧
    (JSNum.fin 30).IsNonneg :=
  have h : parseTimeEntry (str "[30 mins] Code review") =
      some ⟨.fin 30, str "Code review", .fin 30, str "mins"⟩ := by decide!
  ⟨h, (parseTimeEntry_time_nonneg _ _ h).1⟩

/-- C15: the record list and the error that `processTimeData` sets are a function of
the input text alone: they are the same from any two states with the same input
text, the input text is left as it is, and a second run on the result of a run
changes nothing. -/
theorem processTimeData_stateless (inputText : Str) (td td' : List ChartRecord)
    (err err' : String) :
    processTimeData ⟨inputText, td, err⟩ = processTimeData ⟨inputText, td', err'⟩ ∧
    (processTimeData ⟨inputText, td, err⟩).inputText = inputText ∧
    processTimeData (processTimeData ⟨inputText, td, err⟩) =
      processTimeData ⟨inputText, td, err⟩ := by
  refine ⟨?_, processTimeData_inputText _, ?_⟩
  · rw [processTimeData_eq, processTimeData_eq]
  · rw [processTimeData_eq (processTimeData _), processTimeData_inputText]
    exact (processTimeData_eq _).symm

/-- C16: the line `[1000...0 m] x`, whose number has 310 digits, has a tag of the
grammar; its captured number parses to `Infinity`, which `isNaN` does not reject, and
`parseTimeEntry` returns an entry whose `originalValue` and `time` are `Infinity`
instead of `null`. -/
theorem parseTimeEntry_infinite_time :
    timeRegex.exec hugeLine =
      some ⟨0, str "[1" ++ List.replicate 309 0x30 ++ str " m]",
        [(2, str "m"), (1, str "1" ++ List.replicate 309 0x30)]⟩ ∧
    parseFloat (str "1" ++ List.replicate 309 0x30) = .inf ∧
    JSNum.isNaN .inf = false ∧
    parseTimeEntry hugeLine = some ⟨.inf, str "x", .inf, str "m"⟩ := by
  refine ⟨by decide!, by decide!, rfl, by decide!⟩

/-! ## The order of the records -/

theorem foldl_firstKeys {α : Type} (key : α → String) (xs : List α) :
    ∀ acc : List String,
      xs.foldl (fun acc x => if key x ∈ acc then acc else acc ++ [key x]) acc =
        acc ++ (removeRepeats (xs.map key)).filter (fun k => decide (k ∉ acc)) := by
  induction xs with
  | nil => intro acc; simp [removeRepeats]
  | cons x xs ih =>
    intro acc
    rw [List.foldl_cons, ih, List.map_cons, removeRepeats]
    by_cases hx : key x ∈ acc
    · rw [if_pos hx, List.filter_cons, if_neg (by simpa using hx), List.filter_filter]
      congr 1
      apply List.filter_congr
      intro k _
      by_cases hk : k ∈ acc
      · simp [hk]
      · have : k ≠ key x := fun h => hk (h ▸ hx)
        simp [hk, this]
    · rw [if_neg hx, List.filter_cons, if_pos (by simpa using hx), List.filter_filter,
        List.append_assoc, List.singleton_append]
      congr 2
      apply List.filter_congr
      intro k _
      by_cases hk : k = key x
      · simp [hk]
      · simp [hk]

theorem firstKeys_eq_removeRepeats {α : Type} (key : α → String) (xs : List α) :
    firstKeys key xs = removeRepeats (xs.map key) := by
  unfold firstKeys
  rw [foldl_firstKeys]
  simp

/-- C17: the names of the records, in the order in which `processTimeData` emits
them, are the categories of the valid entries in the order of the input lines, with
every repetition after the first removed.  On the lines `[1 m] lunch`, `[2 m] code`,
`[1 m] call`, `[3 m] fix` the order is Miscellaneous, Development & Engineering,
Meetings & Calls: neither the order of the table nor that of falling percentages. -/
theorem processTimeData_record_order (st : AppState) :
    (processTimeData st).timeData.map (fun r => r.name) =
      removeRepeats ((validEntries st.inputText).map (fun e => categorizeEntry e.text)) ∧
    (processTimeData ⟨str "[1 m] lunch\n[2 m] code\n[1 m] call\n[3 m] fix", [], ""⟩).timeData =
      [⟨"Miscellaneous", .ofRat (143 / 10), .fin 0⟩,
       ⟨"Development & Engineering", .ofRat (714 / 10), .ofRat (1 / 10)⟩,
       ⟨"Meetings & Calls", .ofRat (143 / 10), .fin 0⟩] := by
  refine ⟨?_, by decide!⟩
  rw [processTimeData_names, firstKeys_eq_removeRepeats]
  rfl

/-- C18: `parseTimeEntry` returns `null` exactly when the line has no substring
matching the tag grammar; a line with such a substring yields an entry whose
`originalValue` and `time` are not negative; and whenever the regular expression
matches, the captured number does not parse to `NaN`, so that the `isNaN` guard never
fires. -/
theorem parseTimeEntry_null_iff_no_tag (line : Str) :
    (parseTimeEntry line = none ↔ ¬ HasTag line) ∧
    (HasTag line → ∃ e, parseTimeEntry line = some e ∧
      e.originalValue.IsNonneg ∧ e.time.IsNonneg) ∧
    (∀ m, timeRegex.exec line = some m → (parseFloat (m.group 1)).isNaN = false) := by
  refine ⟨parseTimeEntry_eq_none_iff, ?_, ?_⟩
  · intro ht
    cases he : parseTimeEntry line with
    | none => exact absurd ht (parseTimeEntry_eq_none_iff.1 he)
    | some e =>
      obtain ⟨d, hd, hv, htime⟩ := parseTimeEntry_values he
      refine ⟨e, rfl, hv ▸ ofRat_nonneg d, ?_⟩
      rcases htime with h | h <;> rw [h]
      · exact ofRat_nonneg d
      · exact ofRat_mul_nonneg d
  · intro m hm
    obtain ⟨pre, tag, post, num, u, hl, rfl⟩ := exec_eq_some hm
    obtain ⟨ws, hn, -, -, -⟩ := hl.2.1
    simp only [MatchResult.group, List.lookup]
    simp [parseFloat_number hn, JSNum.ofRat_not_nan]

/-! ## Shadowed and reachable table rows -/

theorem categorizeEntry_within {pre post : List (String × List Str)}
    {row : String × List Str} (hc : categories = pre ++ row :: post) {d : Str}
    (h : SomeKeywordIn row.2 (toLowerCase d)) :
    categorizeEntry d ∈ (pre ++ [row]).map Prod.fst := by
  have hex : ∃ entry ∈ categories, SomeKeywordIn entry.2 (toLowerCase d) :=
    ⟨row, by rw [hc]; simp, h⟩
  obtain ⟨before, c, kws, after, hcat, hbefore, -, hres⟩ :=
    @categorizeWith_primary categories workTerms d hex
  have hres' : categorizeEntry d = c := hres
  rw [hres']
  rw [hc] at hcat
  rcases List.append_eq_append_iff.1 hcat with ⟨a, hb, ha⟩ | ⟨a, hp, ha⟩
  · -- `before` reaches at least to `row`
    cases a with
    | nil =>
      simp only [List.nil_append, List.cons.injEq] at ha
      rw [ha.1]
      simp
    | cons x a =>
      simp only [List.cons_append, List.cons.injEq] at ha
      exfalso
      apply hbefore row _ h
      rw [hb, ha.1]
      simp
  · -- the row found is before `row` or is `row`
    cases a with
    | nil =>
      simp only [List.nil_append, List.cons.injEq] at ha
      rw [← ha.1]
      simp
    | cons x a =>
      simp only [List.cons_append, List.cons.injEq] at ha
      rw [hp, ← ha.1]
      simp

theorem someKeywordIn_of_sub {keywords : List Str} {kw word text : Str}
    (hk : kw ∈ keywords) (hw : kw <:+: word) (ht : word <:+: text) :
    SomeKeywordIn keywords text := ⟨kw, hk, hw.trans ht⟩

/-- C19: a description whose lower-cased form contains `learning`, `workshop` or
`development` is never classified Learning & Growth: with `learning` it is Meetings &
Calls or Research & Documentation, with `workshop` it is Meetings & Calls, with
`development` it is Meetings & Calls, Research & Documentation or Development &
Engineering.  `Learning React hooks` is Research & Documentation. -/
theorem learning_keywords_shadowed (d : Str)
    (h : str "learning" <:+: toLowerCase d ∨ str "workshop" <:+: toLowerCase d ∨
      str "development" <:+: toLowerCase d) :
    categorizeEntry d ≠ "Learning & Growth" ∧
    (str "learning" <:+: toLowerCase d →
      categorizeEntry d ∈ ["Meetings & Calls", "Research & Documentation"]) ∧
    (str "workshop" <:+: toLowerCase d → categorizeEntry d = "Meetings & Calls") ∧
    (str "development" <:+: toLowerCase d →
      categorizeEntry d ∈
        ["Meetings & Calls", "Research & Documentation", "Development & Engineering"]) ∧
    categorizeEntry (str "Learning React hooks") = "Research & Documentation" := by
  have h1 : str "learning" <:+: toLowerCase d →
      categorizeEntry d ∈ ["Meetings & Calls", "Research & Documentation"] := by
    intro hl
    have hc : categories = categories.take 1 ++ categories.getD 1 ("", []) ::
        categories.drop 2 := by decide
    have := categorizeEntry_within hc (d := d)
      (@someKeywordIn_of_sub _ (str "learn") _ _ (by decide) (by decide) hl)
    exact (by decide : ∀ c ∈ (categories.take 1 ++ [categories.getD 1 ("", [])]).map Prod.fst,
      c ∈ ["Meetings & Calls", "Research & Documentation"]) _ this
  have h2 : str "workshop" <:+: toLowerCase d → categorizeEntry d = "Meetings & Calls" := by
    intro hl
    have hc : categories = ([] : List (String × List Str)) ++
        categories.getD 0 ("", []) :: categories.drop 1 := by decide
    have := categorizeEntry_within hc (d := d)
      (@someKeywordIn_of_sub _ (str "workshop") _ _ (by decide) (by decide) hl)
    exact (by decide : ∀ c ∈ (([] : List (String × List Str)) ++
      [categories.getD 0 ("", [])]).map Prod.fst, c = "Meetings & Calls") _ this
  have h3 : str "development" <:+: toLowerCase d → categorizeEntry d ∈
      ["Meetings & Calls", "Research & Documentation", "Development & Engineering"] := by
    intro hl
    have hc : categories = categories.take 2 ++ categories.getD 2 ("", []) ::
        categories.drop 3 := by decide
    have := categorizeEntry_within hc (d := d)
      (@someKeywordIn_of_sub _ (str "develop") _ _ (by decide) (by decide) hl)
    exact (by decide : ∀ c ∈ (categories.take 2 ++ [categories.getD 2 ("", [])]).map Prod.fst,
      c ∈ ["Meetings & Calls", "Research & Documentation", "Development & Engineering"]) _ this
  refine ⟨?_, h1, h2, h3, by decide⟩
  rcases h with h | h | h
  · exact (by decide : ∀ c ∈ ["Meetings & Calls", "Research & Documentation"],
      c ≠ "Learning & Growth") _ (h1 h)
  · rw [h2 h]
    decide
  · exact (by decide : ∀ c ∈
      ["Meetings & Calls", "Research & Documentation", "Development & Engineering"],
      c ≠ "Learning & Growth") _ (h3 h)

/-- C19, at the description `Learning React hooks`. -/
theorem learning_keywords_shadowed_witness :
    (str "learning" <:+: toLowerCase (str "Learning React hooks") ∨
      str "workshop" <:+: toLowerCase (str "Learning React hooks") ∨
      str "development" <:+: toLowerCase (str "Learning React hooks")) ∧
    categorizeEntry (str "Learning React hooks") ≠ "Learning & Growth" :=
  have h : str "learning" <:+: toLowerCase (str "Learning React hooks") ∨
      str "workshop" <:+: toLowerCase (str "Learning React hooks") ∨
      str "development" <:+: toLowerCase (str "Learning React hooks") := .inl (by decide)
  ⟨h, (learning_keywords_shadowed _ h).1⟩

/-- C20: each of the twelve category names is the value of `categorizeEntry` at some
description, and every row of the table has a keyword that `categorizeEntry` puts in
the row's own category, that is a keyword holding no keyword of an earlier row. -/
theorem every_category_reachable :
    (∀ name ∈ categoryNames, ∃ d, categorizeEntry d = name) ∧
    (∀ row ∈ categories, ∃ kw ∈ row.2, categorizeEntry kw = row.1) ∧
    categorizeEntry (str "training") = "Learning & Growth" ∧
    categorizeEntry (str "lunch") = "Miscellaneous" := by
  have hrows : ∀ row ∈ categories, ∃ kw ∈ row.2, categorizeEntry kw = row.1 := by decide
  refine ⟨?_, hrows, by decide, by decide⟩
  intro name hname
  have hsplit : name ∈ categories.map Prod.fst ∨ name = "Miscellaneous" :=
    (by decide : ∀ n ∈ categoryNames, n ∈ categories.map Prod.fst ∨ n = "Miscellaneous")
      name hname
  rcases hsplit with hn | rfl
  · obtain ⟨row, hrow, rfl⟩ := List.mem_map.1 hn
    obtain ⟨kw, -, hkw⟩ := hrows row hrow
    exact ⟨kw, hkw⟩
  · exact ⟨str "lunch", by decide⟩


end TimeAnalyzer
